import Mathlib

/-!
# rng-bench: statistics aggregation, partitioning, loader and driver

A shallow embedding of the benchmark engine of `rng-bench`
(`include/rng_stats.h`, `include/rng_pcg32.h`, `include/rng_xoroshiro128pp.h`,
`include/rng_xoroshiro256ss.h`, `include/rng_std_wrappers.h`,
`include/rng_splitmix64.h`, `include/rng_csimd_dynamic.h`, `src/main.cpp`).

Conventions.
* `uint64_t` / `unsigned` values are natural numbers; every operation that can
  leave the range is followed by `% 2 ^ 64` (resp. `% 2 ^ 32`).
* `double` / `long double` values are rationals: the arithmetic of the
  accumulators is taken exact.
* Wall-clock measurements (`ScopedTimer`) are not part of the model.
* The workers of a phase run concurrently and hand their local accumulators to
  the shared one under a mutex; the order in which they do so is a parameter
  of the model (a list of worker indices).
-/

namespace RngBench

/-! ## `rng_stats.h`: `RunningStats` -/

/-- `struct RunningStats`: Welford accumulator (`mean`, `m2` are `long double`,
`n` is `uint64_t`). -/
structure RunningStats where
  mean : ℚ := 0
  m2 : ℚ := 0
  n : Nat := 0
deriving DecidableEq

namespace RunningStats

/-- `void push(double x)`. -/
def push (s : RunningStats) (x : ℚ) : RunningStats :=
  let n : Nat := (s.n + 1) % 2 ^ 64
  let d := x - s.mean
  let mean := s.mean + d / (n : ℚ)
  let d2 := x - mean
  { mean := mean, m2 := s.m2 + d * d2, n := n }

/-- `double variance() const`. -/
def variance (s : RunningStats) : ℚ :=
  if s.n > 1 then s.m2 / ((s.n - 1 : Nat) : ℚ) else 0

/-- Pushing the samples of a list one by one, first element first. -/
def pushAll (s : RunningStats) (xs : List ℚ) : RunningStats :=
  xs.foldl push s

end RunningStats

/-- The merge step of `bench_f64` (`main.cpp`, lines 158-164): `g` holds the
values of `global_mean`, `global_M2`, `global_n`, and `st` is the accumulator
of the reporting worker. Nothing is written when `st.n` is zero. -/
def mergeStep (g st : RunningStats) : RunningStats :=
  let n2 : Nat := (g.n + st.n) % 2 ^ 64
  if st.n ≠ 0 then
    let delta := st.mean - g.mean
    let mean_new := g.mean + delta * ((st.n : ℚ) / (n2 : ℚ))
    let M2_new := g.m2 + st.m2 + delta * delta * ((g.n : ℚ) * (st.n : ℚ) / (n2 : ℚ))
    { mean := mean_new, m2 := M2_new, n := n2 }
  else g

/-- Accumulator determined by a sample count, a sum and a sum of squares. -/
def ofMoments (len : Nat) (sum sumsq : ℚ) : RunningStats :=
  { mean := sum / len, m2 := sumsq - len * (sum / len) ^ 2, n := len }

/-- Sum of the squares of a list of samples. -/
def sumSq (xs : List ℚ) : ℚ := (xs.map (fun x => x ^ 2)).sum

/-- State of a list as an accumulator: count, sum and sum of squares. -/
def statsOf (xs : List ℚ) : RunningStats := ofMoments xs.length xs.sum (sumSq xs)

/-! ## `rng_stats.h`: `ByteHist` -/

/-- `struct ByteHist`: `std::array<uint64_t,256> bins`, zero-initialised. -/
structure ByteHist where
  bins : List Nat := List.replicate 256 0
  size : bins.length = 256 := by exact List.length_replicate _ _

namespace ByteHist

/-- The statement `bins[b]++` on a `uint64_t` counter. -/
def incr (h : ByteHist) (b : Nat) : ByteHist :=
  { bins := h.bins.set b ((h.bins.getD b 0 + 1) % 2 ^ 64)
    size := by rw [List.length_set]; exact h.size }

/-- The index used at iteration `i` of `push_u64`: `(x >> (i*8)) & 0xFFu`. -/
def byteAt (x i : Nat) : Nat := (x >>> (i * 8)) &&& 0xFF

/-- `void push_u64(uint64_t x)`: the loop `for (int i=0;i<8;++i)`. -/
def push_u64 (h : ByteHist) (x : Nat) : ByteHist :=
  (List.range 8).foldl (fun acc i => acc.incr (byteAt x i)) h

/-- The first loop of `chi_square`: `for (auto v: bins) total += v;` on `uint64_t`. -/
def total (h : ByteHist) : Nat :=
  h.bins.foldl (fun t v => (t + v) % 2 ^ 64) 0

/-- `double chi_square() const`. -/
def chi_square (h : ByteHist) : ℚ :=
  let total := h.total
  if total = 0 then 0
  else
    let expct : ℚ := (total : ℚ) / 256
    h.bins.foldl
      (fun (chi : ℚ) (v : Nat) => let diff : ℚ := (v : ℚ) - expct; chi + (diff * diff) / expct) 0

/-- The critical-section loop `for (int i=0;i<256;++i) agg_hist.bins[i] += h.bins[i];`. -/
def addInto (agg h : ByteHist) : ByteHist :=
  { bins := List.zipWith (fun a b => (a + b) % 2 ^ 64) agg.bins h.bins
    size := by rw [List.length_zipWith, agg.size, h.size]; rfl }

/-- Histogram with all 256 bins equal to `c`. -/
def uniform (c : Nat) : ByteHist :=
  { bins := List.replicate 256 c, size := List.length_replicate _ _ }

/-- Histogram whose bin `i` holds `N` and whose other bins are zero. -/
def single (i N : Nat) : ByteHist :=
  { bins := (List.replicate 256 0).set i N
    size := by rw [List.length_set]; exact List.length_replicate _ _ }

end ByteHist

/-! ## `rng_splitmix64.h` -/

/-- `splitmix64::next()`: returns the output and the new `state`. -/
def splitmix64_next (state : Nat) : Nat × Nat :=
  let state' := (state + 0x9E3779B97F4A7C15) % 2 ^ 64
  let z := state'
  let z := ((z ^^^ (z >>> 30)) * 0xBF58476D1CE4E5B9) % 2 ^ 64
  let z := ((z ^^^ (z >>> 27)) * 0x94D049BB133111EB) % 2 ^ 64
  (z ^^^ (z >>> 31), state')

/-! ## Backends -/

/-- The capability every `RNG` template argument of `run_bench_fixed` offers:
construction from a 64-bit seed, `next_u64()` and `next_double()`. -/
structure Rng where
  State : Type
  init : Nat → State
  next_u64 : State → Nat × State
  next_double : State → ℚ × State

/-- The expression `(x >> 11) * (1.0/9007199254740992.0)` on a `uint64_t` `x`. -/
def toDouble53 (x : Nat) : ℚ := ((x >>> 11 : Nat) : ℚ) * (1 / 9007199254740992)

/-- `rotl(x, k)` of the xoroshiro/xoshiro headers. -/
def rotl (x k : Nat) : Nat := ((x <<< k) % 2 ^ 64) ||| (x >>> (64 - k))

/-! ### `rng_pcg32.h` -/

/-- `struct pcg32`. -/
structure pcg32 where
  state : Nat
  inc : Nat

namespace pcg32

/-- `uint32_t next_u32()`. -/
def next_u32 (g : pcg32) : Nat × pcg32 :=
  let oldstate := g.state
  let state := (oldstate * 6364136223846793005 + g.inc) % 2 ^ 64
  let xorshifted := (((oldstate >>> 18) ^^^ oldstate) >>> 27) % 2 ^ 32
  let rot := (oldstate >>> 59) % 2 ^ 32
  ((xorshifted >>> rot) ||| ((xorshifted <<< (((2 ^ 32 - rot) % 2 ^ 32) &&& 31)) % 2 ^ 32),
    { g with state := state })

/-- `pcg32(uint64_t seed, uint64_t seq = 54u)`. -/
def init (seed : Nat) (seq : Nat := 54) : pcg32 :=
  let g : pcg32 := { state := 0, inc := ((seq <<< 1) % 2 ^ 64) ||| 1 }
  let g := (next_u32 g).2
  let g := { g with state := (g.state + seed) % 2 ^ 64 }
  (next_u32 g).2

/-- `uint64_t next_u64()`. -/
def next_u64 (g : pcg32) : Nat × pcg32 :=
  let (a, g) := next_u32 g
  let (b, g) := next_u32 g
  (((a <<< 32) % 2 ^ 64) ||| b, g)

/-- `double next_double()`. -/
def next_double (g : pcg32) : ℚ × pcg32 :=
  let (x, g) := next_u64 g
  (toDouble53 x, g)

/-- The backend `pcg32`. -/
def rng : Rng :=
  { State := pcg32, init := fun s => init s, next_u64 := next_u64, next_double := next_double }

end pcg32

/-! ### `rng_xoroshiro128pp.h` -/

/-- `struct xoroshiro128pp`. -/
structure xoroshiro128pp where
  s0 : Nat
  s1 : Nat

namespace xoroshiro128pp

/-- `explicit xoroshiro128pp(uint64_t seed)`: two draws of the splitmix64 chain `sm`. -/
def init (seed : Nat) : xoroshiro128pp :=
  let (a, z) := splitmix64_next seed
  let (b, _) := splitmix64_next z
  { s0 := a, s1 := b }

/-- `uint64_t next_u64()`. -/
def next_u64 (g : xoroshiro128pp) : Nat × xoroshiro128pp :=
  let r := (rotl ((g.s0 + g.s1) % 2 ^ 64) 17 + g.s0) % 2 ^ 64
  let s1 := g.s1 ^^^ g.s0
  let s0 := rotl g.s0 49 ^^^ s1 ^^^ ((s1 <<< 21) % 2 ^ 64)
  let s1 := rotl s1 28
  (r, { s0 := s0, s1 := s1 })

/-- `double next_double()`. -/
def next_double (g : xoroshiro128pp) : ℚ × xoroshiro128pp :=
  let (x, g) := next_u64 g
  (toDouble53 x, g)

/-- The backend `xoroshiro128pp`. -/
def rng : Rng :=
  { State := xoroshiro128pp, init := init, next_u64 := next_u64, next_double := next_double }

end xoroshiro128pp

/-! ### `rng_xoroshiro256ss.h` -/

/-- `struct xoshiro256ss`: the array `s[4]`. -/
structure xoshiro256ss where
  s0 : Nat
  s1 : Nat
  s2 : Nat
  s3 : Nat

namespace xoshiro256ss

/-- `explicit xoshiro256ss(uint64_t seed)`: four draws of the splitmix64 chain `sm`. -/
def init (seed : Nat) : xoshiro256ss :=
  let (a, z) := splitmix64_next seed
  let (b, z) := splitmix64_next z
  let (c, z) := splitmix64_next z
  let (d, _) := splitmix64_next z
  { s0 := a, s1 := b, s2 := c, s3 := d }

/-- `uint64_t next_u64()`. -/
def next_u64 (g : xoshiro256ss) : Nat × xoshiro256ss :=
  let result := (rotl ((g.s1 * 5) % 2 ^ 64) 7 * 9) % 2 ^ 64
  let t := (g.s1 <<< 17) % 2 ^ 64
  let s2 := g.s2 ^^^ g.s0
  let s3 := g.s3 ^^^ g.s1
  let s1 := g.s1 ^^^ s2
  let s0 := g.s0 ^^^ s3
  let s2 := s2 ^^^ t
  let s3 := rotl s3 45
  (result, { s0 := s0, s1 := s1, s2 := s2, s3 := s3 })

/-- `double next_double()`. -/
def next_double (g : xoshiro256ss) : ℚ × xoshiro256ss :=
  let (x, g) := next_u64 g
  (toDouble53 x, g)

/-- The backend `xoshiro256ss`. -/
def rng : Rng :=
  { State := xoshiro256ss, init := init, next_u64 := next_u64, next_double := next_double }

end xoshiro256ss

/-! ### `rng_std_wrappers.h` -/

/-- An engine of `<random>` (`std::mt19937`, `std::mt19937_64`, `std::minstd_rand`,
`std::ranlux48`): the library is not part of the repository, so its seeding
constructor and its `operator()` are parameters. -/
structure Engine where
  State : Type
  seed : Nat → State
  gen : State → Nat × State

/-- The body shared by `std_mt19937::next_u64`, `std_minstd_rand::next_u64` and
`std_ranlux48::next_u64`: `uint64_t a = gen(), b = gen(); return (a << 32) | b;`. -/
def Engine.next_u64_pair (E : Engine) (g : E.State) : Nat × E.State :=
  let (a, g) := E.gen g
  let a := a % 2 ^ 64
  let (b, g) := E.gen g
  let b := b % 2 ^ 64
  (((a <<< 32) % 2 ^ 64) ||| b, g)

/-- `std_mt19937::next_double` (likewise `std_minstd_rand`, `std_ranlux48`):
`uint64_t x = next_u64() >> 11; return x * (1.0/9007199254740992.0);`. -/
def Engine.next_double_pair (E : Engine) (g : E.State) : ℚ × E.State :=
  let (x, g) := E.next_u64_pair g
  (toDouble53 x, g)

/-- `struct std_mt19937`: seeded with `static_cast<uint32_t>(seed)`. -/
def std_mt19937 (E : Engine) : Rng :=
  { State := E.State, init := fun s => E.seed (s % 2 ^ 32),
    next_u64 := E.next_u64_pair, next_double := E.next_double_pair }

/-- `std_mt19937_64::next_u64`: `return gen();`. -/
def Engine.next_u64_single (E : Engine) (g : E.State) : Nat × E.State :=
  let (a, g) := E.gen g
  (a % 2 ^ 64, g)

/-- `std_mt19937_64::next_double`. -/
def Engine.next_double_single (E : Engine) (g : E.State) : ℚ × E.State :=
  let (x, g) := E.next_u64_single g
  (toDouble53 x, g)

/-- `struct std_mt19937_64`: seeded with the 64-bit `seed`. -/
def std_mt19937_64 (E : Engine) : Rng :=
  { State := E.State, init := fun s => E.seed s,
    next_u64 := E.next_u64_single, next_double := E.next_double_single }

/-- `struct std_minstd_rand`: seeded with `static_cast<uint32_t>(seed)`. -/
def std_minstd_rand (E : Engine) : Rng :=
  { State := E.State, init := fun s => E.seed (s % 2 ^ 32),
    next_u64 := E.next_u64_pair, next_double := E.next_double_pair }

/-- `struct std_ranlux48`: seeded with `static_cast<unsigned long>(seed)`
(64 bits wide on the LP64 targets of the POSIX branch of `rng_platform.h`). -/
def std_ranlux48 (E : Engine) : Rng :=
  { State := E.State, init := fun s => E.seed (s % 2 ^ 64),
    next_u64 := E.next_u64_pair, next_double := E.next_double_pair }

/-! ## `main.cpp`: configuration and results -/

/-- `struct Cmd`; the default of `threads` is `hw_threads()`, which the caller supplies. -/
structure Cmd where
  total : Nat := 100000000
  threads : Nat
  csv_path : String := ""
  csimd_path : String := ""
  csimd_algo : Int := 0
  csimd_bitwidth : Int := 1
  seed : Nat := 0xC0FFEED5EED
  gens : List String := []

/-- `struct BenchResult`, without the wall-clock fields (`secs_*`, `ops_per_s_*`). -/
structure BenchResult where
  name : String
  total_u64 : Nat := 0
  total_f64 : Nat := 0
  mean_f64 : ℚ := 0
  var_f64 : ℚ := 0
  chi2_bytes : ℚ := 0
  threads : Nat := 1

/-- Ways in which the process stops before `main` returns. -/
inductive Abort where
  /-- `std::exit(code)`. -/
  | exit (code : Nat)
  /-- An exception that no handler catches (`std::terminate`). -/
  | uncaught
  /-- Integer division by zero. -/
  | divByZero
deriving DecidableEq

/-- The order in which the `W` workers of one phase enter the critical section
guarded by `agg_mtx`: every worker index `0..W-1` exactly once. -/
structure Schedule (W : Nat) where
  order : List Nat
  perm : order.Perm (List.range W)

/-- The schedule in which the workers report in launch order. -/
def Schedule.inOrder (W : Nat) : Schedule W := ⟨List.range W, List.Perm.refl _⟩

/-- What the worker lambdas use of a generator: construction from a seed, which
fails when the constructor throws (`CSimdLib::Instance`), and the two draws. -/
structure Backend where
  State : Type
  create : Nat → Option State
  next_u64 : State → Nat × State
  next_double : State → ℚ × State

/-- A built-in generator as a backend: its constructor does not throw. -/
def Rng.toBackend (R : Rng) : Backend :=
  { State := R.State, create := fun s => some (R.init s),
    next_u64 := R.next_u64, next_double := R.next_double }

/-! ## `main.cpp`: the worker lambdas -/

/-- Seeder state of worker `tid` in the integer phase:
`cmd.seed + tid*0x9E3779B97F4A7C15ull` (`tid` is `unsigned`, the product `uint64_t`). -/
def seeder_u64 (seed tid : Nat) : Nat :=
  (seed + (tid * 0x9E3779B97F4A7C15) % 2 ^ 64) % 2 ^ 64

/-- Seeder state of worker `tid` in the double phase:
`cmd.seed + 0xFACEB00CULL + tid*0x9E37` (the product is `unsigned`, 32 bits). -/
def seeder_f64 (seed tid : Nat) : Nat :=
  ((seed + 0xFACEB00C) % 2 ^ 64 + (tid * 0x9E37) % 2 ^ 32) % 2 ^ 64

/-- The sampling loop of `bench_u64`, `k` iterations left:
`x = rng.next_u64(); h.push_u64(x); local++`. -/
def draw_u64 (B : Backend) : Nat → B.State → ByteHist → Nat → ByteHist × Nat
  | 0, _, h, loc => (h, loc)
  | k + 1, rng, h, loc =>
    let (x, rng) := B.next_u64 rng
    draw_u64 B k rng (h.push_u64 x) ((loc + 1) % 2 ^ 64)

/-- The part of `bench_u64(tid)` before the lock: the local histogram and `local`. -/
def bench_u64 (B : Backend) (seed per_thread tid : Nat) : Option (ByteHist × Nat) :=
  match B.create (splitmix64_next (seeder_u64 seed tid)).1 with
  | none => none
  | some rng => some (draw_u64 B per_thread rng {} 0)

/-- The sampling loop of `bench_f64`, `k` iterations left:
`d = rng.next_double(); st.push(d); local++`. -/
def draw_f64 (B : Backend) : Nat → B.State → RunningStats → Nat → RunningStats × Nat
  | 0, _, st, loc => (st, loc)
  | k + 1, rng, st, loc =>
    let (d, rng) := B.next_double rng
    draw_f64 B k rng (st.push d) ((loc + 1) % 2 ^ 64)

/-- The part of `bench_f64(tid)` before the lock: the local accumulator and `local`. -/
def bench_f64 (B : Backend) (seed per_thread tid : Nat) : Option (RunningStats × Nat) :=
  match B.create (splitmix64_next (seeder_f64 seed tid)).1 with
  | none => none
  | some rng => some (draw_f64 B per_thread rng {} 0)

/-- Shared state of the integer phase: `agg_hist`, `total_u64`. -/
structure U64Agg where
  agg_hist : ByteHist := {}
  total_u64 : Nat := 0

/-- The critical section of `bench_u64`. -/
def U64Agg.report (a : U64Agg) (h : ByteHist) (loc : Nat) : U64Agg :=
  { agg_hist := a.agg_hist.addInto h, total_u64 := (a.total_u64 + loc) % 2 ^ 64 }

/-- Shared state of the double phase: the function-local statics `global_mean`,
`global_M2`, `global_n` (held in `statics`), `agg_stats` and `total_f64`. -/
structure F64Agg where
  statics : RunningStats
  agg_stats : RunningStats := {}
  total_f64 : Nat := 0

/-- The critical section of `bench_f64`: the statics are merged with the worker's
accumulator and copied to `agg_stats`, both only when `st.n` is not zero. -/
def F64Agg.report (a : F64Agg) (st : RunningStats) (loc : Nat) : F64Agg :=
  { statics := mergeStep a.statics st
    agg_stats := if st.n ≠ 0 then mergeStep a.statics st else a.agg_stats
    total_f64 := (a.total_f64 + loc) % 2 ^ 64 }

/-- The integer phase: every worker of `order` runs `bench_u64` and reports. The
result is `none` when a worker's generator constructor throws. -/
def phase_u64 (B : Backend) (seed per_thread : Nat) (order : List Nat) (a : U64Agg) :
    Option U64Agg :=
  match order with
  | [] => some a
  | tid :: rest =>
    match bench_u64 B seed per_thread tid with
    | none => none
    | some (h, loc) => phase_u64 B seed per_thread rest (a.report h loc)

/-- The double phase: every worker of `order` runs `bench_f64` and reports. -/
def phase_f64 (B : Backend) (seed per_thread : Nat) (order : List Nat) (a : F64Agg) :
    Option F64Agg :=
  match order with
  | [] => some a
  | tid :: rest =>
    match bench_f64 B seed per_thread tid with
    | none => none
    | some (st, loc) => phase_f64 B seed per_thread rest (a.report st loc)

/-- The body shared by `run_bench_fixed<RNG>` and `run_bench_csimd` after the
generator type is fixed. `statics` holds the values of the function-local statics
of `bench_f64` on entry; the result carries their values on return. -/
def run_bench (B : Backend) (name : String) (cmd : Cmd) (statics : RunningStats)
    (su sf : Schedule cmd.threads) : Except Abort (BenchResult × RunningStats) :=
  if cmd.threads = 0 then .error .divByZero
  else
    let per_thread := cmd.total / cmd.threads
    match phase_u64 B cmd.seed per_thread su.order {} with
    | none => .error .uncaught
    | some u =>
      match phase_f64 B cmd.seed per_thread sf.order { statics := statics } with
      | none => .error .uncaught
      | some f =>
        .ok ({ name := name
               total_u64 := u.total_u64
               total_f64 := f.total_f64
               mean_f64 := f.agg_stats.mean
               var_f64 := f.agg_stats.variance
               chi2_bytes := u.agg_hist.chi_square
               threads := cmd.threads }, f.statics)

/-- `run_bench_fixed<RNG>(name, cmd)`. -/
def run_bench_fixed (R : Rng) (name : String) (cmd : Cmd) (statics : RunningStats)
    (su sf : Schedule cmd.threads) : Except Abort (BenchResult × RunningStats) :=
  run_bench R.toBackend name cmd statics su sf

/-! ## Byte counts of a sample stream -/

/-- Number of the 8 bytes of `x` that are equal to `c`. -/
def bytesEq (x c : Nat) : Nat :=
  (List.range 8).countP (fun i => decide (ByteHist.byteAt x i = c))

/-- Number of bytes equal to `c` among the bytes of the samples `xs`. -/
def bytesIn (xs : List Nat) (c : Nat) : Nat :=
  (xs.map (fun x => bytesEq x c)).sum

/-- The values `x` drawn by the sampling loop of `bench_u64`, in order. -/
def drawn_u64 (B : Backend) : Nat → B.State → List Nat
  | 0, _ => []
  | k + 1, rng => (B.next_u64 rng).1 :: drawn_u64 B k (B.next_u64 rng).2

/-- The values drawn by worker `tid` of the integer phase. -/
def samples_u64 (B : Backend) (seed per_thread tid : Nat) : List Nat :=
  match B.create (splitmix64_next (seeder_u64 seed tid)).1 with
  | none => []
  | some rng => drawn_u64 B per_thread rng

/-- Number of bytes equal to `c` drawn by the workers `order` of the integer phase. -/
def bytesInPhase (B : Backend) (seed per_thread : Nat) (order : List Nat) (c : Nat) : Nat :=
  (order.map (fun tid => bytesIn (samples_u64 B seed per_thread tid) c)).sum

/-! ## Statement of the bit-to-double procedure -/

/-- A generator maps draws to doubles by the top 53 bits: from every state,
`next_double` returns `(x >> 11) * 2^-53` for the 64-bit value `x` that `next_u64`
returns from that state (and leaves the same state behind), so the result `r`
satisfies `0 <= r < 1` and `r * 2^53` is an integer below `2^53`. -/
def Top53 (R : Rng) : Prop :=
  ∀ s : R.State,
    (R.next_u64 s).1 < 2 ^ 64 ∧
    R.next_double s = ((((R.next_u64 s).1 >>> 11 : Nat) : ℚ) / 2 ^ 53, (R.next_u64 s).2) ∧
    0 ≤ (R.next_double s).1 ∧ (R.next_double s).1 < 1 ∧
    ∃ k : Nat, k < 2 ^ 53 ∧ (R.next_double s).1 * 2 ^ 53 = (k : ℚ)

/-! ## `rng_platform.h` and `rng_csimd_dynamic.h`: the dynamic loader -/

/-- The operating system and the loaded library, as far as the loader uses them:
`open_library` (a null handle is `none`), `load_symbol` (a null pointer is `none`),
and the behaviour of the functions behind the resolved pointers. `close_library`
returns nothing and is recorded in the call log only. -/
structure Platform where
  Handle : Type
  Ptr : Type
  PState : Type
  open_library : String → Option Handle
  load_symbol : Handle → String → Option Ptr
  call_new : Ptr → Nat → Int → Int → Option PState
  call_next_u64 : Ptr → PState → Nat × PState
  call_next_double : Ptr → PState → ℚ × PState

/-- A call of one of the three functions of `rng_platform.h`. -/
inductive Call (P : Platform) where
  | open_library (path : String)
  | load_symbol (h : P.Handle) (name : String)
  | close_library (h : P.Handle)

/-- Holds for the calls of `close_library`. -/
def Call.isClose {P : Platform} : Call P → Bool
  | .close_library _ => true
  | _ => false

/-- Holds for the calls of `load_symbol`. -/
def Call.isLookup {P : Platform} : Call P → Bool
  | .load_symbol _ _ => true
  | _ => false

/-- `struct CSimdLib` after a successful construction. -/
structure CSimdLib (P : Platform) where
  lib : P.Handle
  p_new : P.Ptr
  p_next_u64 : P.Ptr
  p_next_double : P.Ptr
  p_free : P.Ptr

/-- `explicit CSimdLib(const std::string& libpath)`: the constructed object, or the
`what()` of the `std::runtime_error` it throws, together with the platform calls made,
in order. The destructor does not run when the constructor throws. -/
def CSimdLib.ctor (P : Platform) (libpath : String) :
    Except String (CSimdLib P) × List (Call P) :=
  match P.open_library libpath with
  | none =>
    (.error ("failed to open C-SIMD-RNG library at: " ++ libpath), [.open_library libpath])
  | some lib =>
    let p_new := P.load_symbol lib "universal_rng_new"
    let p_next_u64 := P.load_symbol lib "universal_rng_next_u64"
    let p_next_double := P.load_symbol lib "universal_rng_next_double"
    let p_free := P.load_symbol lib "universal_rng_free"
    let calls : List (Call P) :=
      [.open_library libpath, .load_symbol lib "universal_rng_new",
       .load_symbol lib "universal_rng_next_u64", .load_symbol lib "universal_rng_next_double",
       .load_symbol lib "universal_rng_free"]
    match p_new, p_next_u64, p_next_double, p_free with
    | some a, some b, some c, some d =>
      (.ok { lib := lib, p_new := a, p_next_u64 := b, p_next_double := c, p_free := d }, calls)
    | _, _, _, _ =>
      (.error "failed to resolve required symbols in C-SIMD-RNG lib",
        calls ++ [.close_library lib])

/-- `struct CSimdLib::Instance` as a backend: the constructor calls `p_new` and throws
when it returns null; the draws call `p_next_u64` and `p_next_double`. -/
def CSimdLib.Instance {P : Platform} (lib : CSimdLib P) (algo_id bitwidth : Int) : Backend :=
  { State := P.PState
    create := fun seed => P.call_new lib.p_new seed algo_id bitwidth
    next_u64 := fun s => ((P.call_next_u64 lib.p_next_u64 s).1 % 2 ^ 64,
                          (P.call_next_u64 lib.p_next_u64 s).2)
    next_double := fun s => P.call_next_double lib.p_next_double s }

/-- `run_bench_csimd(name, cmd, libpath, algo_id, bitwidth)`: the inner `Except`
carries the `std::runtime_error` of the `CSimdLib` constructor, which the caller may
catch; the rest of the body is that of `run_bench_fixed` with `CSimdLib::Instance`
as generator. -/
def run_bench_csimd (P : Platform) (name : String) (cmd : Cmd) (libpath : String)
    (algo_id bitwidth : Int) (statics : RunningStats) (su sf : Schedule cmd.threads) :
    Except Abort (Except String (BenchResult × RunningStats)) :=
  match (CSimdLib.ctor P libpath).1 with
  | .error what => .ok (.error what)
  | .ok lib =>
    match run_bench (lib.Instance algo_id bitwidth) name cmd statics su sf with
    | .error a => .error a
    | .ok r => .ok (.ok r)

/-! ## `main.cpp`: `parse` and `main` -/

/-- The functions of the C++ standard library that `parse` and `hw_threads` call.
`stoull`, `stoul`, `stoi` give `none` when they throw; `read_hex` is the extraction
`ss << std::hex << arg; ss >> c.seed` and gives `none` when the stream fails. -/
structure StdLib where
  stoull : String → Option Nat
  stoul : String → Option Nat
  stoi : String → Option Int
  read_hex : String → Option Nat
  hardware_concurrency : Nat

/-- `inline unsigned hw_threads()`. -/
def hw_threads (L : StdLib) : Nat :=
  let n := L.hardware_concurrency % 2 ^ 32
  if n ≠ 0 then n else 1

/-- The loop of the `--gens` branch: the pieces of `s` between commas; `cur` holds the
characters of the current piece, last first. -/
def splitCommas (cur : List Char) : List Char → List String
  | [] => [String.mk cur.reverse]
  | ch :: cs =>
    if ch = ',' then String.mk cur.reverse :: splitCommas [] cs
    else splitCommas (ch :: cur) cs

/-- The loop of `parse` over `argv[i..]`; `need(1)` exits with status 1 when no
argument follows, an exception of a conversion is caught nowhere. -/
def parseArgs (L : StdLib) : List String → Cmd → Except Abort Cmd
  | [], c => .ok c
  | [a], _ =>
    if a = "--help" ∨ a = "-h" then .error (.exit 0)
    else .error (.exit 1)
  | a :: v :: rest, c =>
    if a = "--help" ∨ a = "-h" then .error (.exit 0)
    else if a = "--total" then
      match L.stoull v with
      | none => .error .uncaught
      | some t => parseArgs L rest { c with total := t % 2 ^ 64 }
    else if a = "--threads" then
      match L.stoul v with
      | none => .error .uncaught
      | some t =>
        let threads := t % 2 ^ 32
        parseArgs L rest { c with threads := if threads = 0 then 1 else threads }
    else if a = "--seed" then
      match L.read_hex v with
      | some s => parseArgs L rest { c with seed := s % 2 ^ 64 }
      | none =>
        match L.stoull v with
        | none => .error .uncaught
        | some s => parseArgs L rest { c with seed := s % 2 ^ 64 }
    else if a = "--csv" then parseArgs L rest { c with csv_path := v }
    else if a = "--gens" then
      parseArgs L rest { c with gens := c.gens ++ splitCommas [] v.data }
    else if a = "--csimd-lib" then parseArgs L rest { c with csimd_path := v }
    else if a = "--csimd-algo" then
      match L.stoi v with
      | none => .error .uncaught
      | some n => parseArgs L rest { c with csimd_algo := n }
    else if a = "--csimd-bw" then
      match L.stoi v with
      | none => .error .uncaught
      | some n => parseArgs L rest { c with csimd_bitwidth := n }
    else .error (.exit 1)

/-- `static Cmd parse(int argc, char** argv)`: the loop starts at `argv[1]`. -/
def parse (L : StdLib) (argv : List String) : Except Abort Cmd :=
  parseArgs L (argv.drop 1) { threads := hw_threads L }

/-- The four engines of `<random>` behind the wrappers of `rng_std_wrappers.h`. -/
structure Engines where
  mt19937 : Engine
  mt19937_64 : Engine
  minstd_rand : Engine
  ranlux48 : Engine

/-- The schedules of the two phases of each benchmark, by result name. -/
structure Scheduler where
  u64 : String → (W : Nat) → Schedule W
  f64 : String → (W : Nat) → Schedule W

/-- The lambda `wants` of `main`. -/
def wants (cmd : Cmd) (tag : String) : Bool := cmd.gens.contains tag

/-- The statement `if (wants(tag)) results.push_back(run_bench_fixed<RNG>(name, cmd));`.
`main` calls each instantiation once, so its statics hold their initial zeros. -/
def bench_if_wanted (sch : Scheduler) (cmd : Cmd) (tag name : String) (R : Rng)
    (results : List BenchResult) : Except Abort (List BenchResult) :=
  if wants cmd tag then
    match run_bench_fixed R name cmd {} (sch.u64 name cmd.threads) (sch.f64 name cmd.threads) with
    | .error a => .error a
    | .ok (r, _) => .ok (results ++ [r])
  else .ok results

/-- The `csimd` block of `main`: skipped with a warning when no path was given; a
`std::exception` of `run_bench_csimd` is caught and the backend left out. -/
def bench_csimd_if_wanted (P : Platform) (sch : Scheduler) (cmd : Cmd)
    (results : List BenchResult) : Except Abort (List BenchResult) :=
  if wants cmd "csimd" then
    if cmd.csimd_path = "" then .ok results
    else
      match run_bench_csimd P "csimd_universal" cmd cmd.csimd_path cmd.csimd_algo
          cmd.csimd_bitwidth {} (sch.u64 "csimd_universal" cmd.threads)
          (sch.f64 "csimd_universal" cmd.threads) with
      | .error a => .error a
      | .ok (.error _) => .ok results
      | .ok (.ok (r, _)) => .ok (results ++ [r])
  else .ok results

/-- The default list of `main` for an empty `cmd.gens`. -/
def default_gens : List String :=
  ["std_mt19937", "std_mt19937_64", "std_minstd", "ranlux48", "xoroshiro128pp", "pcg32",
   "csimd"]

/-- The configuration `main` works with: the default list replaces an empty `gens`. -/
def with_default_gens (cmd0 : Cmd) : Cmd :=
  if cmd0.gens.isEmpty then { cmd0 with gens := default_gens } else cmd0

/-- The body of `main` after `parse`: the vector `results` handed to `print_table`
and to the CSV writer. -/
def run_all (E : Engines) (P : Platform) (sch : Scheduler) (cmd0 : Cmd) :
    Except Abort (List BenchResult) :=
  let cmd : Cmd := with_default_gens cmd0
  (bench_if_wanted sch cmd "std_mt19937" "std_mt19937" (std_mt19937 E.mt19937) []).bind
  fun results =>
  (bench_if_wanted sch cmd "std_mt19937_64" "std_mt19937_64"
    (std_mt19937_64 E.mt19937_64) results).bind
  fun results =>
  (bench_if_wanted sch cmd "std_minstd" "minstd_rand" (std_minstd_rand E.minstd_rand)
    results).bind
  fun results =>
  (bench_if_wanted sch cmd "ranlux48" "ranlux48" (std_ranlux48 E.ranlux48) results).bind
  fun results =>
  (bench_if_wanted sch cmd "xoroshiro128pp" "xoroshiro128pp" xoroshiro128pp.rng results).bind
  fun results =>
  (bench_if_wanted sch cmd "pcg32" "pcg32" pcg32.rng results).bind
  fun results =>
  bench_csimd_if_wanted P sch cmd results

/-- `int main(int argc, char** argv)`: the results it reports, or the way the process
stops before. -/
def main (L : StdLib) (E : Engines) (P : Platform) (sch : Scheduler) (argv : List String) :
    Except Abort (List BenchResult) :=
  (parse L argv).bind (run_all E P sch)

/-! ## Consecutive invocations -/

/-- Two invocations of the same instantiation `run_bench_fixed<RNG>` in one process,
with the same arguments: the function-local statics of `bench_f64` are zero before the
first invocation, and the second finds them as the first left them. The result holds
the statics found by the second invocation and the two reports. -/
def run_bench_fixed_twice (R : Rng) (name : String) (cmd : Cmd)
    (su sf su' sf' : Schedule cmd.threads) :
    Except Abort (RunningStats × BenchResult × BenchResult) :=
  match run_bench_fixed R name cmd {} su sf with
  | .error a => .error a
  | .ok (r1, statics) =>
    match run_bench_fixed R name cmd statics su' sf' with
    | .error a => .error a
    | .ok (r2, _) => .ok (statics, r1, r2)

/-! ## A concrete environment

Stand-ins for the parts of the environment that are parameters of the model, used to
run `parse` and `main` on concrete argument lists. -/

/-- Value of a non-empty string of decimal digits, as `std::stoull` reads it. -/
def decimal (s : String) : Option Nat :=
  if s.data ≠ [] ∧ s.data.all Char.isDigit = true then
    some (s.data.foldl (fun n ch => 10 * n + (ch.toNat - 48)) 0)
  else none

/-- A standard library that converts strings of decimal digits, whose hexadecimal
extraction fails, on a machine with four hardware threads. -/
def StdLib.digits : StdLib :=
  { stoull := fun s => (decimal s).bind (fun n => if n < 2 ^ 64 then some n else none)
    stoul := fun s => (decimal s).bind (fun n => if n < 2 ^ 64 then some n else none)
    stoi := fun s => (decimal s).bind (fun n => if n < 2 ^ 31 then some (n : Int) else none)
    read_hex := fun _ => none
    hardware_concurrency := 4 }

/-- An engine that counts: a stand-in for an engine of `<random>`. -/
def Engine.counter : Engine :=
  { State := Nat, seed := fun s => s, gen := fun s => (s % 2 ^ 32, s + 1) }

/-- The four engines, each the counting stand-in. -/
def Engines.counters : Engines :=
  { mt19937 := Engine.counter, mt19937_64 := Engine.counter,
    minstd_rand := Engine.counter, ranlux48 := Engine.counter }

/-- A platform on which no library can be opened. -/
def Platform.bare : Platform :=
  { Handle := Unit, Ptr := Unit, PState := Unit
    open_library := fun _ => none
    load_symbol := fun _ _ => none
    call_new := fun _ _ _ _ => none
    call_next_u64 := fun _ s => (0, s)
    call_next_double := fun _ s => (0, s) }

/-- The scheduler under which the workers of every phase report in launch order. -/
def Scheduler.inOrder : Scheduler :=
  { u64 := fun _ W => Schedule.inOrder W, f64 := fun _ W => Schedule.inOrder W }

/-- The built-in backends of `main`, in the order of its `if (wants(...))` statements:
the tag looked up in `cmd.gens` and the name given to the result. -/
def fixed_backends : List (String × String) :=
  [("std_mt19937", "std_mt19937"), ("std_mt19937_64", "std_mt19937_64"),
   ("std_minstd", "minstd_rand"), ("ranlux48", "ranlux48"),
   ("xoroshiro128pp", "xoroshiro128pp"), ("pcg32", "pcg32")]

/-! ## The samples of the double phase -/

/-- A platform on which every library opens and every symbol resolves, and whose
`universal_rng_new` returns null. -/
def Platform.null_new : Platform :=
  { Handle := Unit, Ptr := Unit, PState := Unit
    open_library := fun _ => some ()
    load_symbol := fun _ _ => some ()
    call_new := fun _ _ _ _ => none
    call_next_u64 := fun _ s => (0, s)
    call_next_double := fun _ s => (0, s) }

/-! ## Welford accumulation: closed form -/

theorem ofMoments_zero : ofMoments 0 0 0 = {} := by
  simp [ofMoments]

theorem push_ofMoments (len : Nat) (sum sumsq x : ℚ) (h : len + 1 < 2 ^ 64)
    (hz : len = 0 → sum = 0) :
    (ofMoments len sum sumsq).push x = ofMoments (len + 1) (sum + x) (sumsq + x ^ 2) := by
  have hmod : (len + 1) % 2 ^ 64 = len + 1 := Nat.mod_eq_of_lt h
  have hne : ((len : ℚ) + 1) ≠ 0 := by positivity
  simp only [RunningStats.push, ofMoments, hmod]
  rcases Nat.eq_zero_or_pos len with h0 | hpos
  · subst h0
    simp [hz rfl]
  · have hl : (len : ℚ) ≠ 0 := by positivity
    simp only [RunningStats.mk.injEq, Nat.cast_add, Nat.cast_one, and_true]
    constructor
    · field_simp
      ring
    · field_simp
      ring

theorem pushAll_ofMoments (xs : List ℚ) (len : Nat) (sum sumsq : ℚ)
    (h : len + xs.length < 2 ^ 64) (hz : len = 0 → sum = 0) :
    (ofMoments len sum sumsq).pushAll xs
      = ofMoments (len + xs.length) (sum + xs.sum) (sumsq + sumSq xs) := by
  induction xs generalizing len sum sumsq with
  | nil => simp [RunningStats.pushAll, sumSq]
  | cons x xs ih =>
    simp only [List.length_cons] at h
    have h1 : len + 1 < 2 ^ 64 := by omega
    have h2 : (len + 1) + xs.length < 2 ^ 64 := by omega
    have := ih (len + 1) (sum + x) (sumsq + x ^ 2) h2 (by omega)
    simp only [RunningStats.pushAll, List.foldl_cons] at this ⊢
    rw [push_ofMoments len sum sumsq x h1 hz, this]
    simp only [List.length_cons, List.sum_cons, sumSq, List.map_cons]
    congr 1
    · omega
    · ring
    · ring

theorem pushAll_empty (xs : List ℚ) (h : xs.length < 2 ^ 64) :
    ({} : RunningStats).pushAll xs = statsOf xs := by
  have := pushAll_ofMoments xs 0 0 0 (by simpa using h) (fun _ => rfl)
  simpa [ofMoments_zero, statsOf] using this

theorem mergeStep_statsOf (xs ys : List ℚ) (h : xs.length + ys.length < 2 ^ 64) :
    mergeStep (statsOf xs) (statsOf ys) = statsOf (xs ++ ys) := by
  have hmod : (xs.length + ys.length) % 2 ^ 64 = xs.length + ys.length := Nat.mod_eq_of_lt h
  rcases Nat.eq_zero_or_pos ys.length with hy | hy
  · have : ys = [] := List.length_eq_zero.mp hy
    subst this
    simp [mergeStep, statsOf, ofMoments]
  · have hyq : (ys.length : ℚ) ≠ 0 := by positivity
    rcases Nat.eq_zero_or_pos xs.length with hx | hx
    · have : xs = [] := List.length_eq_zero.mp hx
      subst this
      have hm : ys.length % 2 ^ 64 = ys.length := by simpa using hmod
      have hlt : ys.length < 2 ^ 64 := by simpa using h
      simp only [mergeStep, statsOf, ofMoments, sumSq, List.length_nil, List.sum_nil,
        List.map_nil, Nat.zero_add, hm, List.nil_append, ne_eq, Nat.pos_iff_ne_zero.mp hy,
        not_false_eq_true, if_true, RunningStats.mk.injEq, and_true]
      constructor
      · field_simp
      · simp
    · have hxq : (xs.length : ℚ) ≠ 0 := by positivity
      have hs : ((xs.length : ℚ) + ys.length) ≠ 0 := by positivity
      simp only [mergeStep, statsOf, ofMoments, hmod, sumSq, List.length_append, List.sum_append,
        List.map_append, Nat.cast_add, ne_eq, Nat.pos_iff_ne_zero.mp hy, not_false_eq_true,
        if_true, RunningStats.mk.injEq, and_true]
      constructor
      · field_simp
        ring
      · field_simp
        ring

theorem foldl_mergeStep_statsOf (gs : List (List ℚ)) (acc : List ℚ)
    (h : acc.length + gs.flatten.length < 2 ^ 64) :
    (gs.map statsOf).foldl mergeStep (statsOf acc) = statsOf (acc ++ gs.flatten) := by
  induction gs generalizing acc with
  | nil => simp
  | cons g gs ih =>
    simp only [List.flatten_cons, List.length_append] at h
    simp only [List.map_cons, List.foldl_cons, List.flatten_cons]
    rw [mergeStep_statsOf acc g (by omega), ih (acc ++ g) (by rw [List.length_append]; omega)]
    simp

theorem statsOf_perm {xs ys : List ℚ} (h : xs.Perm ys) : statsOf xs = statsOf ys := by
  simp only [statsOf, sumSq, h.length_eq, h.sum_eq, (h.map _).sum_eq]

theorem sum_sq_dev (xs : List ℚ) (m : ℚ) :
    (xs.map (fun x => (x - m) ^ 2)).sum = sumSq xs - 2 * m * xs.sum + xs.length * m ^ 2 := by
  induction xs with
  | nil => simp [sumSq]
  | cons x xs ih =>
    simp only [List.map_cons, List.sum_cons, ih, sumSq, List.length_cons, Nat.cast_add,
      Nat.cast_one]
    ring

theorem statsOf_m2 (xs : List ℚ) :
    (statsOf xs).m2 = (xs.map (fun x => (x - (statsOf xs).mean) ^ 2)).sum := by
  rw [sum_sq_dev]
  simp only [statsOf, ofMoments]
  rcases Nat.eq_zero_or_pos xs.length with h0 | hpos
  · have : xs = [] := List.length_eq_zero.mp h0
    subst this
    simp [sumSq]
  · have hl : (xs.length : ℚ) ≠ 0 := by positivity
    field_simp
    ring

/-! ## C2 -/

/-- C2: in exact arithmetic, pushing the samples `x1..xn` (fewer than `2^64`, the range
of the 64-bit counter) one by one into an empty `RunningStats` leaves `n` equal to the
list length, `mean = (x1+...+xn)/n`, `m2` equal to the sum of the `(xi - mean)^2`, and
`variance()` returns `m2/(n-1)` when `n > 1` and `0` when `n` is `0` or `1`. -/
theorem running_stats_closed_form (xs : List ℚ) (h : xs.length < 2 ^ 64) :
    (RunningStats.pushAll {} xs).n = xs.length ∧
    (RunningStats.pushAll {} xs).mean = xs.sum / (xs.length : ℚ) ∧
    (RunningStats.pushAll {} xs).m2
      = (xs.map (fun x => (x - (RunningStats.pushAll {} xs).mean) ^ 2)).sum ∧
    (RunningStats.pushAll {} xs).variance
      = (if 1 < xs.length then (RunningStats.pushAll {} xs).m2 / ((xs.length : ℚ) - 1) else 0) ∧
    (xs.length ≤ 1 → (RunningStats.pushAll {} xs).variance = 0) := by
  rw [pushAll_empty xs h]
  refine ⟨rfl, rfl, statsOf_m2 xs, ?_, ?_⟩
  · simp only [RunningStats.variance, statsOf, ofMoments, gt_iff_lt]
    split_ifs with h1
    · rw [Nat.cast_sub (le_of_lt h1)]
      simp
    · rfl
  · intro h1
    simp only [RunningStats.variance, statsOf, ofMoments, gt_iff_lt]
    rw [if_neg (by omega)]

theorem running_stats_closed_form_witness :
    ([1, 2, 4] : List ℚ).length < 2 ^ 64 ∧
    (RunningStats.pushAll {} [1, 2, 4]).n = ([1, 2, 4] : List ℚ).length ∧
    (RunningStats.pushAll {} [1, 2, 4]).mean
      = ([1, 2, 4] : List ℚ).sum / (([1, 2, 4] : List ℚ).length : ℚ) ∧
    (RunningStats.pushAll {} [1, 2, 4]).m2
      = (([1, 2, 4] : List ℚ).map
          (fun x => (x - (RunningStats.pushAll {} [1, 2, 4]).mean) ^ 2)).sum ∧
    (RunningStats.pushAll {} [1, 2, 4]).variance
      = (if 1 < ([1, 2, 4] : List ℚ).length
          then (RunningStats.pushAll {} [1, 2, 4]).m2 / ((([1, 2, 4] : List ℚ).length : ℚ) - 1)
          else 0) ∧
    (([1, 2, 4] : List ℚ).length ≤ 1 → (RunningStats.pushAll {} [1, 2, 4]).variance = 0) :=
  ⟨by decide, running_stats_closed_form [1, 2, 4] (by decide)⟩

/-! ## C1 -/

/-- C1: in exact arithmetic, for every list of samples `xs` (fewer than `2^64`), every
partition `groups` of it (groups may be empty, and need not be contiguous) and every
order `order` in which the groups are reported, accumulating each group with `push`
from an empty accumulator and folding the group accumulators with the merge step of
`bench_f64` into an empty global accumulator gives the same `n`, `mean`, `m2` and
`variance()` as pushing all samples into a single `RunningStats`. -/
theorem merge_partition_eq_single_pass (xs : List ℚ) (groups order : List (List ℚ))
    (hpart : groups.flatten.Perm xs) (hord : order.Perm groups) (hlen : xs.length < 2 ^ 64) :
    ((order.map (RunningStats.pushAll {})).foldl mergeStep {}).n
        = (RunningStats.pushAll {} xs).n ∧
    ((order.map (RunningStats.pushAll {})).foldl mergeStep {}).mean
        = (RunningStats.pushAll {} xs).mean ∧
    ((order.map (RunningStats.pushAll {})).foldl mergeStep {}).m2
        = (RunningStats.pushAll {} xs).m2 ∧
    ((order.map (RunningStats.pushAll {})).foldl mergeStep {}).variance
        = (RunningStats.pushAll {} xs).variance := by
  have hp : order.flatten.Perm xs := (hord.flatten).trans hpart
  have hl : order.flatten.length < 2 ^ 64 := by rw [hp.length_eq]; exact hlen
  have hmap : order.map (RunningStats.pushAll {}) = order.map statsOf := by
    apply List.map_congr_left
    intro g hg
    apply pushAll_empty
    have : g.length ≤ order.flatten.length := by
      have := List.Sublist.length_le (List.sublist_flatten_of_mem hg)
      exact this
    omega
  have hfold : (order.map (RunningStats.pushAll {})).foldl mergeStep {}
      = RunningStats.pushAll {} xs := by
    rw [hmap, pushAll_empty xs hlen, ← statsOf_perm hp]
    have := foldl_mergeStep_statsOf order [] (by simpa using hl)
    have h0 : statsOf [] = {} := by simp [statsOf, ofMoments_zero, sumSq]
    rw [h0] at this
    simpa using this
  rw [hfold]
  exact ⟨rfl, rfl, rfl, rfl⟩

theorem merge_partition_eq_single_pass_witness :
    ([[1, 2], [], [3, 5]] : List (List ℚ)).flatten.Perm [1, 2, 3, 5] ∧
    ([[3, 5], [1, 2], []] : List (List ℚ)).Perm [[1, 2], [], [3, 5]] ∧
    ([1, 2, 3, 5] : List ℚ).length < 2 ^ 64 ∧
    ((([[3, 5], [1, 2], []] : List (List ℚ)).map (RunningStats.pushAll {})).foldl mergeStep {}).n
        = (RunningStats.pushAll {} [1, 2, 3, 5]).n ∧
    ((([[3, 5], [1, 2], []] : List (List ℚ)).map (RunningStats.pushAll {})).foldl mergeStep {}).mean
        = (RunningStats.pushAll {} [1, 2, 3, 5]).mean ∧
    ((([[3, 5], [1, 2], []] : List (List ℚ)).map (RunningStats.pushAll {})).foldl mergeStep {}).m2
        = (RunningStats.pushAll {} [1, 2, 3, 5]).m2 ∧
    ((([[3, 5], [1, 2], []] : List (List ℚ)).map (RunningStats.pushAll {})).foldl
        mergeStep {}).variance
        = (RunningStats.pushAll {} [1, 2, 3, 5]).variance :=
  ⟨by decide, by decide, by decide,
    merge_partition_eq_single_pass [1, 2, 3, 5] [[1, 2], [], [3, 5]] [[3, 5], [1, 2], []]
      (by decide) (by decide) (by decide)⟩

/-! ## The sampling loops and the totals -/

theorem draw_u64_local (B : Backend) (k : Nat) (rng : B.State) (h : ByteHist) (loc : Nat) :
    (draw_u64 B k rng h loc).2 = (loc + k) % 2 ^ 64 ∨ (k = 0 ∧ (draw_u64 B k rng h loc).2 = loc) := by
  induction k generalizing rng h loc with
  | zero => right; exact ⟨rfl, rfl⟩
  | succ k ih =>
    left
    simp only [draw_u64]
    rcases ih (B.next_u64 rng).2 (h.push_u64 (B.next_u64 rng).1) ((loc + 1) % 2 ^ 64) with h1 | ⟨h0, h1⟩
    · rw [h1]; omega
    · rw [h1, h0]

theorem draw_u64_local_zero (B : Backend) (k : Nat) (rng : B.State) (h : ByteHist)
    (hk : k < 2 ^ 64) : (draw_u64 B k rng h 0).2 = k := by
  rcases draw_u64_local B k rng h 0 with h1 | ⟨h0, h1⟩
  · rw [h1]; omega
  · rw [h1, h0]

theorem draw_f64_local (B : Backend) (k : Nat) (rng : B.State) (st : RunningStats) (loc : Nat) :
    (draw_f64 B k rng st loc).2 = (loc + k) % 2 ^ 64 ∨ (k = 0 ∧ (draw_f64 B k rng st loc).2 = loc) := by
  induction k generalizing rng st loc with
  | zero => right; exact ⟨rfl, rfl⟩
  | succ k ih =>
    left
    simp only [draw_f64]
    rcases ih (B.next_double rng).2 (st.push (B.next_double rng).1) ((loc + 1) % 2 ^ 64)
      with h1 | ⟨h0, h1⟩
    · rw [h1]; omega
    · rw [h1, h0]

theorem draw_f64_local_zero (B : Backend) (k : Nat) (rng : B.State) (st : RunningStats)
    (hk : k < 2 ^ 64) : (draw_f64 B k rng st 0).2 = k := by
  rcases draw_f64_local B k rng st 0 with h1 | ⟨h0, h1⟩
  · rw [h1]; omega
  · rw [h1, h0]

theorem draw_f64_n (B : Backend) (k : Nat) (rng : B.State) (st : RunningStats) (loc : Nat) :
    (draw_f64 B k rng st loc).1.n = (st.n + k) % 2 ^ 64 ∨
      (k = 0 ∧ (draw_f64 B k rng st loc).1.n = st.n) := by
  induction k generalizing rng st loc with
  | zero => right; exact ⟨rfl, rfl⟩
  | succ k ih =>
    left
    simp only [draw_f64]
    rcases ih (B.next_double rng).2 (st.push (B.next_double rng).1) ((loc + 1) % 2 ^ 64)
      with h1 | ⟨h0, h1⟩
    · rw [h1]; simp only [RunningStats.push]; omega
    · rw [h1, h0]; simp only [RunningStats.push]

theorem draw_f64_n_zero (B : Backend) (k : Nat) (rng : B.State) (hk : k < 2 ^ 64) :
    (draw_f64 B k rng {} 0).1.n = k := by
  rcases draw_f64_n B k rng {} 0 with h1 | ⟨h0, h1⟩
  · rw [h1]; show (0 + k) % 2 ^ 64 = k; omega
  · rw [h1, h0]

theorem drawn_u64_length (B : Backend) (k : Nat) (rng : B.State) :
    (drawn_u64 B k rng).length = k := by
  induction k generalizing rng with
  | zero => rfl
  | succ k ih => simp only [drawn_u64, List.length_cons, ih]

theorem phase_u64_total (B : Backend) (seed p : Nat) (hp : p < 2 ^ 64) (order : List Nat)
    (a u : U64Agg) (h : phase_u64 B seed p order a = some u) :
    u.total_u64 = (a.total_u64 + p * order.length) % 2 ^ 64 ∨
      (order = [] ∧ u.total_u64 = a.total_u64) := by
  induction order generalizing a with
  | nil =>
    right
    simp only [phase_u64, Option.some.injEq] at h
    exact ⟨rfl, by rw [h]⟩
  | cons tid rest ih =>
    left
    simp only [phase_u64] at h
    cases hb : bench_u64 B seed p tid with
    | none => rw [hb] at h; simp at h
    | some r =>
      obtain ⟨hh, loc⟩ := r
      rw [hb] at h
      simp only at h
      have hloc : loc = p := by
        simp only [bench_u64] at hb
        cases hc : B.create (splitmix64_next (seeder_u64 seed tid)).1 with
        | none => rw [hc] at hb; simp at hb
        | some rng =>
          rw [hc] at hb
          simp only [Option.some.injEq] at hb
          have := draw_u64_local_zero B p rng {} hp
          rw [hb] at this
          exact this
      subst hloc
      rcases ih _ h with h1 | ⟨h0, h1⟩
      · rw [h1]
        simp only [U64Agg.report, List.length_cons, Nat.mul_add, Nat.mul_one]
        omega
      · rw [h1, h0]
        simp only [U64Agg.report, List.length_cons, List.length_nil, Nat.mul_add, Nat.mul_one]
        omega

theorem phase_f64_total (B : Backend) (seed p : Nat) (hp : p < 2 ^ 64) (order : List Nat)
    (a f : F64Agg) (h : phase_f64 B seed p order a = some f) :
    f.total_f64 = (a.total_f64 + p * order.length) % 2 ^ 64 ∨
      (order = [] ∧ f.total_f64 = a.total_f64) := by
  induction order generalizing a with
  | nil =>
    right
    simp only [phase_f64, Option.some.injEq] at h
    exact ⟨rfl, by rw [h]⟩
  | cons tid rest ih =>
    left
    simp only [phase_f64] at h
    cases hb : bench_f64 B seed p tid with
    | none => rw [hb] at h; simp at h
    | some r =>
      obtain ⟨st, loc⟩ := r
      rw [hb] at h
      simp only at h
      have hloc : loc = p := by
        simp only [bench_f64] at hb
        cases hc : B.create (splitmix64_next (seeder_f64 seed tid)).1 with
        | none => rw [hc] at hb; simp at hb
        | some rng =>
          rw [hc] at hb
          simp only [Option.some.injEq] at hb
          have := draw_f64_local_zero B p rng {} hp
          rw [hb] at this
          exact this
      subst hloc
      rcases ih _ h with h1 | ⟨h0, h1⟩
      · rw [h1]
        simp only [F64Agg.report, List.length_cons, Nat.mul_add, Nat.mul_one]
        omega
      · rw [h1, h0]
        simp only [F64Agg.report, List.length_cons, List.length_nil, Nat.mul_add, Nat.mul_one]
        omega

theorem phase_u64_fixed_isSome (R : Rng) (seed p : Nat) (order : List Nat) (a : U64Agg) :
    ∃ u, phase_u64 R.toBackend seed p order a = some u := by
  induction order generalizing a with
  | nil => exact ⟨a, rfl⟩
  | cons tid rest ih =>
    simp only [phase_u64, bench_u64, Rng.toBackend]
    exact ih _

theorem phase_f64_fixed_isSome (R : Rng) (seed p : Nat) (order : List Nat) (a : F64Agg) :
    ∃ f, phase_f64 R.toBackend seed p order a = some f := by
  induction order generalizing a with
  | nil => exact ⟨a, rfl⟩
  | cons tid rest ih =>
    simp only [phase_f64, bench_f64, Rng.toBackend]
    exact ih _

theorem Schedule.length_order {W : Nat} (s : Schedule W) : s.order.length = W := by
  rw [s.perm.length_eq, List.length_range]

/-! ## C3 -/

/-- C3: for every total sample count `T` (a `uint64_t`) and every worker count `W >= 1`,
`run_bench_fixed` returns a result; with `per_thread = T / W` (integer division) every
worker draws `per_thread` values in the integer phase and pushes `per_thread` samples in
the double phase, ending each with `local = per_thread`, and the reported `total_u64` and `total_f64` both equal
`per_thread * W`, which is `T` exactly when `W` divides `T`: the remainder `T mod W`
is dropped. -/
theorem run_bench_fixed_totals (R : Rng) (name : String) (cmd : Cmd) (statics : RunningStats)
    (su sf : Schedule cmd.threads) (hT : cmd.total < 2 ^ 64) (hW : 1 ≤ cmd.threads) :
    ∃ r statics',
      run_bench_fixed R name cmd statics su sf = .ok (r, statics') ∧
      r.total_u64 = cmd.total / cmd.threads * cmd.threads ∧
      r.total_f64 = cmd.total / cmd.threads * cmd.threads ∧
      (∀ tid, ∃ h, bench_u64 R.toBackend cmd.seed (cmd.total / cmd.threads) tid
          = some (h, cmd.total / cmd.threads)) ∧
      (∀ tid, (samples_u64 R.toBackend cmd.seed (cmd.total / cmd.threads) tid).length
          = cmd.total / cmd.threads) ∧
      (∀ tid, ∃ st, bench_f64 R.toBackend cmd.seed (cmd.total / cmd.threads) tid
          = some (st, cmd.total / cmd.threads) ∧ st.n = cmd.total / cmd.threads) ∧
      (r.total_u64 = cmd.total ↔ cmd.threads ∣ cmd.total) ∧
      r.total_u64 + cmd.total % cmd.threads = cmd.total := by
  have hp : cmd.total / cmd.threads < 2 ^ 64 :=
    lt_of_le_of_lt (Nat.div_le_self _ _) hT
  have hmul : cmd.total / cmd.threads * cmd.threads ≤ cmd.total := Nat.div_mul_le_self _ _
  have hsplit : cmd.total / cmd.threads * cmd.threads + cmd.total % cmd.threads = cmd.total := by
    rw [Nat.mul_comm]; exact Nat.div_add_mod _ _
  obtain ⟨u, hu⟩ := phase_u64_fixed_isSome R cmd.seed (cmd.total / cmd.threads) su.order {}
  obtain ⟨f, hf⟩ := phase_f64_fixed_isSome R cmd.seed (cmd.total / cmd.threads) sf.order
    { statics := statics }
  have hut : u.total_u64 = cmd.total / cmd.threads * cmd.threads := by
    rcases phase_u64_total _ _ _ hp _ _ _ hu with h1 | ⟨h0, _⟩
    · rw [h1, su.length_order]
      show (0 + _) % 2 ^ 64 = _
      rw [Nat.zero_add]
      exact Nat.mod_eq_of_lt (lt_of_le_of_lt hmul hT)
    · have := su.length_order
      rw [h0] at this
      simp only [List.length_nil] at this
      omega
  have hft : f.total_f64 = cmd.total / cmd.threads * cmd.threads := by
    rcases phase_f64_total _ _ _ hp _ _ _ hf with h1 | ⟨h0, _⟩
    · rw [h1, sf.length_order]
      show (0 + _) % 2 ^ 64 = _
      rw [Nat.zero_add]
      exact Nat.mod_eq_of_lt (lt_of_le_of_lt hmul hT)
    · have := sf.length_order
      rw [h0] at this
      simp only [List.length_nil] at this
      omega
  refine ⟨{ name := name, total_u64 := u.total_u64, total_f64 := f.total_f64,
            mean_f64 := f.agg_stats.mean, var_f64 := f.agg_stats.variance,
            chi2_bytes := u.agg_hist.chi_square, threads := cmd.threads },
          f.statics, ?_, hut, hft, ?_, ?_, ?_, ?_, ?_⟩
  · simp only [run_bench_fixed, run_bench, hu, hf]
    rw [if_neg (by omega)]
  · intro tid
    refine ⟨(draw_u64 R.toBackend (cmd.total / cmd.threads)
      (R.init (splitmix64_next (seeder_u64 cmd.seed tid)).1) {} 0).1, ?_⟩
    have h2 := draw_u64_local_zero R.toBackend _
      (R.init (splitmix64_next (seeder_u64 cmd.seed tid)).1) {} hp
    show some (draw_u64 R.toBackend _ _ {} 0) = _
    exact congrArg some (Prod.ext rfl h2)
  · intro tid
    exact drawn_u64_length R.toBackend _ _
  · intro tid
    refine ⟨(draw_f64 R.toBackend (cmd.total / cmd.threads)
      (R.init (splitmix64_next (seeder_f64 cmd.seed tid)).1) {} 0).1, ?_, ?_⟩
    · have h2 := draw_f64_local_zero R.toBackend _
        (R.init (splitmix64_next (seeder_f64 cmd.seed tid)).1) {} hp
      show some (draw_f64 R.toBackend _ _ {} 0) = _
      exact congrArg some (Prod.ext rfl h2)
    · exact draw_f64_n_zero R.toBackend _ _ hp
  · show u.total_u64 = cmd.total ↔ _
    rw [hut]
    constructor
    · intro h
      exact Dvd.intro_left _ h
    · intro h
      exact Nat.div_mul_cancel h
  · show u.total_u64 + _ = _
    rw [hut]
    exact hsplit

theorem run_bench_fixed_totals_witness :
    (7 : Nat) < 2 ^ 64 ∧ 1 ≤ (2 : Nat) ∧
    ∃ r statics',
      run_bench_fixed pcg32.rng "pcg32" { total := 7, threads := 2 } {}
        (Schedule.inOrder 2) (Schedule.inOrder 2) = .ok (r, statics') ∧
      r.total_u64 = 7 / 2 * 2 ∧
      r.total_f64 = 7 / 2 * 2 ∧
      (∀ tid, ∃ h, bench_u64 pcg32.rng.toBackend 0xC0FFEED5EED (7 / 2) tid
          = some (h, 7 / 2)) ∧
      (∀ tid, (samples_u64 pcg32.rng.toBackend 0xC0FFEED5EED (7 / 2) tid).length = 7 / 2) ∧
      (∀ tid, ∃ st, bench_f64 pcg32.rng.toBackend 0xC0FFEED5EED (7 / 2) tid
          = some (st, 7 / 2) ∧ st.n = 7 / 2) ∧
      (r.total_u64 = 7 ↔ 2 ∣ 7) ∧
      r.total_u64 + 7 % 2 = 7 :=
  ⟨by decide, by decide,
    run_bench_fixed_totals pcg32.rng "pcg32" { total := 7, threads := 2 } {}
      (Schedule.inOrder 2) (Schedule.inOrder 2) (by decide) (by decide)⟩

/-! ## Byte histogram: bin-wise behaviour -/

theorem byteAt_lt (x i : Nat) : ByteHist.byteAt x i < 256 := by
  have : (x >>> (i * 8)) &&& 0xFF ≤ 0xFF := Nat.and_le_right
  simp only [ByteHist.byteAt]
  omega

theorem incr_getD (h : ByteHist) (b c : Nat) (hb : b < 256) :
    (h.incr b).bins.getD c 0
      = if c = b then (h.bins.getD b 0 + 1) % 2 ^ 64 else h.bins.getD c 0 := by
  have hlen := h.size
  simp only [ByteHist.incr, List.getD_eq_getElem?_getD, List.getElem?_set]
  by_cases hcb : c = b
  · subst hcb
    simp [hlen, hb]
  · have : ¬ b = c := fun e => hcb e.symm
    simp [this, hcb]

theorem foldl_incr_getD (x : Nat) (is : List Nat) (h : ByteHist)
    (hno : ∀ c, c < 256 →
      h.bins.getD c 0 + is.countP (fun i => decide (ByteHist.byteAt x i = c)) < 2 ^ 64)
    (c : Nat) (hc : c < 256) :
    (is.foldl (fun acc i => acc.incr (ByteHist.byteAt x i)) h).bins.getD c 0
      = h.bins.getD c 0 + is.countP (fun i => decide (ByteHist.byteAt x i = c)) := by
  induction is generalizing h with
  | nil => simp
  | cons i is ih =>
    simp only [List.foldl_cons]
    have hstep : ∀ d, d < 256 → (h.incr (ByteHist.byteAt x i)).bins.getD d 0
        = h.bins.getD d 0 + if ByteHist.byteAt x i = d then 1 else 0 := by
      intro d hd
      rw [incr_getD h _ d (byteAt_lt x i)]
      by_cases hdb : d = ByteHist.byteAt x i
      · have h1 := hno d hd
        rw [List.countP_cons] at h1
        simp only [hdb, decide_True, if_true] at h1 ⊢
        omega
      · have : ¬ ByteHist.byteAt x i = d := fun e => hdb e.symm
        simp [hdb, this]
    rw [ih (h.incr (ByteHist.byteAt x i)) ?_, hstep c hc, List.countP_cons]
    · simp only [decide_eq_true_eq]
      omega
    · intro d hd
      have h1 := hno d hd
      rw [List.countP_cons] at h1
      rw [hstep d hd]
      simp only [decide_eq_true_eq] at h1
      omega

theorem push_u64_getD (h : ByteHist) (x : Nat)
    (hno : ∀ c, c < 256 → h.bins.getD c 0 + bytesEq x c < 2 ^ 64) (c : Nat) (hc : c < 256) :
    (h.push_u64 x).bins.getD c 0 = h.bins.getD c 0 + bytesEq x c :=
  foldl_incr_getD x (List.range 8) h hno c hc

theorem foldl_push_u64_getD (xs : List Nat) (h : ByteHist)
    (hno : ∀ c, c < 256 → h.bins.getD c 0 + bytesIn xs c < 2 ^ 64) (c : Nat) (hc : c < 256) :
    (xs.foldl ByteHist.push_u64 h).bins.getD c 0 = h.bins.getD c 0 + bytesIn xs c := by
  induction xs generalizing h with
  | nil => simp [bytesIn]
  | cons x xs ih =>
    have hx : ∀ d, d < 256 → h.bins.getD d 0 + bytesEq x d < 2 ^ 64 := by
      intro d hd
      have := hno d hd
      simp only [bytesIn, List.map_cons, List.sum_cons] at this
      omega
    simp only [List.foldl_cons]
    rw [ih (h.push_u64 x) ?_, push_u64_getD h x hx c hc]
    · simp only [bytesIn, List.map_cons, List.sum_cons]
      omega
    · intro d hd
      have := hno d hd
      simp only [bytesIn, List.map_cons, List.sum_cons] at this
      rw [push_u64_getD h x hx d hd]
      simp only [bytesIn]
      omega

theorem list_sum_eq_sum_getD (l : List Nat) :
    l.sum = ∑ c in Finset.range l.length, l.getD c 0 := by
  induction l with
  | nil => simp
  | cons a l ih =>
    rw [List.length_cons, Finset.sum_range_succ', List.sum_cons, ih]
    simp only [List.getD_cons_succ, List.getD_cons_zero]
    omega

theorem bins_sum (h : ByteHist) : h.bins.sum = ∑ c in Finset.range 256, h.bins.getD c 0 := by
  rw [list_sum_eq_sum_getD, h.size]

theorem sum_countP_eq (x : Nat) (is : List Nat) :
    ∑ c in Finset.range 256, is.countP (fun i => decide (ByteHist.byteAt x i = c))
      = is.length := by
  induction is with
  | nil => simp
  | cons i is ih =>
    simp only [List.countP_cons, decide_eq_true_eq, List.length_cons]
    rw [Finset.sum_add_distrib, ih, Finset.sum_ite_eq]
    simp [byteAt_lt x i]

theorem sum_bytesEq (x : Nat) : ∑ c in Finset.range 256, bytesEq x c = 8 := by
  simp only [bytesEq]
  rw [sum_countP_eq]
  rfl

theorem sum_bytesIn (xs : List Nat) : ∑ c in Finset.range 256, bytesIn xs c = 8 * xs.length := by
  induction xs with
  | nil => simp [bytesIn]
  | cons x xs ih =>
    simp only [bytesIn, List.map_cons, List.sum_cons, List.length_cons] at ih ⊢
    rw [Finset.sum_add_distrib, ih, sum_bytesEq]
    omega

theorem draw_u64_hist (B : Backend) (k : Nat) (rng : B.State) (h : ByteHist) (loc : Nat) :
    (draw_u64 B k rng h loc).1 = (drawn_u64 B k rng).foldl ByteHist.push_u64 h := by
  induction k generalizing rng h loc with
  | zero => rfl
  | succ k ih =>
    simp only [draw_u64, drawn_u64, List.foldl_cons]
    exact ih _ _ _

theorem bench_u64_some (B : Backend) (seed p tid : Nat) (hh : ByteHist) (loc : Nat)
    (h : bench_u64 B seed p tid = some (hh, loc)) :
    hh = (samples_u64 B seed p tid).foldl ByteHist.push_u64 {} ∧
      (samples_u64 B seed p tid).length = p := by
  simp only [bench_u64, samples_u64] at h ⊢
  cases hc : B.create (splitmix64_next (seeder_u64 seed tid)).1 with
  | none => rw [hc] at h; simp at h
  | some rng =>
    rw [hc] at h
    simp only [Option.some.injEq] at h
    refine ⟨?_, drawn_u64_length B p rng⟩
    rw [← draw_u64_hist B p rng {} 0, h]

theorem empty_getD (c : Nat) : ({} : ByteHist).bins.getD c 0 = 0 := by
  show (List.replicate 256 0).getD c 0 = 0
  rw [List.getD_eq_getElem?_getD, List.getElem?_replicate]
  split <;> rfl

theorem empty_sum : ({} : ByteHist).bins.sum = 0 := by
  rw [bins_sum]
  exact Finset.sum_eq_zero (fun c _ => empty_getD c)

theorem addInto_getD (a h : ByteHist) (c : Nat) (hc : c < 256) :
    (a.addInto h).bins.getD c 0 = (a.bins.getD c 0 + h.bins.getD c 0) % 2 ^ 64 := by
  have ha : c < a.bins.length := by rw [a.size]; exact hc
  have hh : c < h.bins.length := by rw [h.size]; exact hc
  have hz : c < (List.zipWith (fun a b => (a + b) % 2 ^ 64) a.bins h.bins).length := by
    rw [List.length_zipWith, a.size, h.size]; exact hc
  simp only [ByteHist.addInto]
  rw [List.getD_eq_getElem _ _ hz, List.getD_eq_getElem _ _ ha, List.getD_eq_getElem _ _ hh,
    List.getElem_zipWith]

theorem phase_u64_getD (B : Backend) (seed p : Nat) (order : List Nat) (a u : U64Agg)
    (h : phase_u64 B seed p order a = some u)
    (hno : ∀ c, c < 256 → a.agg_hist.bins.getD c 0 + bytesInPhase B seed p order c < 2 ^ 64)
    (c : Nat) (hc : c < 256) :
    u.agg_hist.bins.getD c 0 = a.agg_hist.bins.getD c 0 + bytesInPhase B seed p order c := by
  induction order generalizing a with
  | nil =>
    simp only [phase_u64, Option.some.injEq] at h
    simp [← h, bytesInPhase]
  | cons tid rest ih =>
    simp only [phase_u64] at h
    cases hb : bench_u64 B seed p tid with
    | none => rw [hb] at h; simp at h
    | some r =>
      obtain ⟨hh, loc⟩ := r
      rw [hb] at h
      simp only at h
      obtain ⟨hhe, _⟩ := bench_u64_some B seed p tid hh loc hb
      have hw : ∀ d, d < 256 → hh.bins.getD d 0 = bytesIn (samples_u64 B seed p tid) d := by
        intro d hd
        rw [hhe, foldl_push_u64_getD _ {} ?_ d hd, empty_getD, Nat.zero_add]
        intro e he
        have := hno e he
        simp only [bytesInPhase, List.map_cons, List.sum_cons] at this
        rw [empty_getD]
        omega
      have hrep : ∀ d, d < 256 → (a.report hh loc).agg_hist.bins.getD d 0
          = a.agg_hist.bins.getD d 0 + bytesIn (samples_u64 B seed p tid) d := by
        intro d hd
        have := hno d hd
        simp only [bytesInPhase, List.map_cons, List.sum_cons] at this
        simp only [U64Agg.report]
        rw [addInto_getD _ _ d hd, hw d hd]
        omega
      rw [ih (a.report hh loc) h ?_, hrep c hc]
      · simp only [bytesInPhase, List.map_cons, List.sum_cons]
        omega
      · intro d hd
        have := hno d hd
        simp only [bytesInPhase, List.map_cons, List.sum_cons] at this
        rw [hrep d hd]
        simp only [bytesInPhase]
        omega

theorem phase_u64_bytes (B : Backend) (seed p : Nat) (order : List Nat) (a u : U64Agg)
    (h : phase_u64 B seed p order a = some u) :
    ∑ c in Finset.range 256, bytesInPhase B seed p order c = 8 * p * order.length := by
  induction order generalizing a with
  | nil => simp [bytesInPhase]
  | cons tid rest ih =>
    simp only [phase_u64] at h
    cases hb : bench_u64 B seed p tid with
    | none => rw [hb] at h; simp at h
    | some r =>
      obtain ⟨hh, loc⟩ := r
      rw [hb] at h
      simp only at h
      obtain ⟨_, hlen⟩ := bench_u64_some B seed p tid hh loc hb
      have := ih _ h
      simp only [bytesInPhase, List.map_cons, List.sum_cons, List.length_cons] at this ⊢
      rw [Finset.sum_add_distrib, this, sum_bytesIn, hlen]
      ring

/-! ## C4 -/

/-- C4: histogram invariant, no 64-bit bin counter overflowing. `push_u64(x)` raises
bin `c` by the number of the 8 bytes of `x` equal to `c` and the sum of the 256 bins by
exactly 8; pushing `k` samples into an empty `ByteHist` leaves bins that sum to `8*k`;
and after the element-wise addition of the histograms of all `W` workers into the empty
global histogram the bins sum to `8 * per_thread * W = 8 * total_u64`. -/
theorem byte_hist_sum_invariant (h : ByteHist) (x : Nat) (xs : List Nat)
    (R : Rng) (cmd : Cmd) (su : Schedule cmd.threads)
    (hpush : ∀ c, c < 256 → h.bins.getD c 0 + bytesEq x c < 2 ^ 64)
    (hxs : ∀ c, c < 256 → bytesIn xs c < 2 ^ 64)
    (hT : cmd.total < 2 ^ 64)
    (hphase : ∀ c, c < 256 →
      bytesInPhase R.toBackend cmd.seed (cmd.total / cmd.threads) su.order c < 2 ^ 64) :
    (h.push_u64 x).bins.sum = h.bins.sum + 8 ∧
    (∀ c, c < 256 → (h.push_u64 x).bins.getD c 0 = h.bins.getD c 0 + bytesEq x c) ∧
    (xs.foldl ByteHist.push_u64 {}).bins.sum = 8 * xs.length ∧
    ∃ u, phase_u64 R.toBackend cmd.seed (cmd.total / cmd.threads) su.order {} = some u ∧
      u.agg_hist.bins.sum = 8 * (cmd.total / cmd.threads) * cmd.threads ∧
      u.agg_hist.bins.sum = 8 * u.total_u64 := by
  have hp : cmd.total / cmd.threads < 2 ^ 64 :=
    lt_of_le_of_lt (Nat.div_le_self _ _) hT
  have hmul : cmd.total / cmd.threads * cmd.threads ≤ cmd.total := Nat.div_mul_le_self _ _
  refine ⟨?_, push_u64_getD h x hpush, ?_, ?_⟩
  · rw [bins_sum, bins_sum, ← sum_bytesEq x, ← Finset.sum_add_distrib]
    apply Finset.sum_congr rfl
    intro c hc
    exact push_u64_getD h x hpush c (Finset.mem_range.mp hc)
  · rw [bins_sum, ← sum_bytesIn xs]
    apply Finset.sum_congr rfl
    intro c hc
    rw [foldl_push_u64_getD xs {} ?_ c (Finset.mem_range.mp hc), empty_getD, Nat.zero_add]
    intro d hd
    rw [empty_getD, Nat.zero_add]
    exact hxs d hd
  · obtain ⟨u, hu⟩ := phase_u64_fixed_isSome R cmd.seed (cmd.total / cmd.threads) su.order {}
    have hsum : u.agg_hist.bins.sum = 8 * (cmd.total / cmd.threads) * cmd.threads := by
      have hb := phase_u64_bytes _ _ _ _ _ _ hu
      rw [su.length_order] at hb
      rw [bins_sum, ← hb]
      apply Finset.sum_congr rfl
      intro c hc
      have hc' := Finset.mem_range.mp hc
      have := phase_u64_getD _ _ _ _ _ _ hu (by
        intro d hd
        show ({} : ByteHist).bins.getD d 0 + _ < _
        rw [empty_getD, Nat.zero_add]
        exact hphase d hd) c hc'
      rw [this]
      show ({} : ByteHist).bins.getD c 0 + _ = _
      rw [empty_getD, Nat.zero_add]
    have hut : u.total_u64 = cmd.total / cmd.threads * cmd.threads := by
      rcases phase_u64_total _ _ _ hp _ _ _ hu with h1 | ⟨_, h1⟩
      · rw [h1, su.length_order]
        show (0 + _) % 2 ^ 64 = _
        rw [Nat.zero_add]
        exact Nat.mod_eq_of_lt (lt_of_le_of_lt hmul hT)
      · have h0 : su.order.length = cmd.threads := su.length_order
        rename_i h2
        rw [h2] at h0
        simp only [List.length_nil] at h0
        rw [h1, ← h0]
        rfl
    refine ⟨u, hu, hsum, ?_⟩
    rw [hsum, hut]
    ring

theorem bytesEq_le (x c : Nat) : bytesEq x c ≤ 8 := by
  have := List.countP_le_length (fun i => decide (ByteHist.byteAt x i = c)) (l := List.range 8)
  simpa [bytesEq] using this

theorem bytesIn_le (xs : List Nat) (c : Nat) : bytesIn xs c ≤ 8 * xs.length := by
  induction xs with
  | nil => simp [bytesIn]
  | cons x xs ih =>
    have := bytesEq_le x c
    simp only [bytesIn, List.map_cons, List.sum_cons, List.length_cons] at ih ⊢
    omega

theorem samples_u64_length_le (B : Backend) (seed p tid : Nat) :
    (samples_u64 B seed p tid).length ≤ p := by
  simp only [samples_u64]
  split
  · simp
  · rw [drawn_u64_length]

theorem bytesInPhase_le (B : Backend) (seed p : Nat) (order : List Nat) (c : Nat) :
    bytesInPhase B seed p order c ≤ 8 * p * order.length := by
  induction order with
  | nil => simp [bytesInPhase]
  | cons tid rest ih =>
    have h1 := bytesIn_le (samples_u64 B seed p tid) c
    have h2 := samples_u64_length_le B seed p tid
    simp only [bytesInPhase, List.map_cons, List.sum_cons, List.length_cons] at ih ⊢
    have : 8 * p * (rest.length + 1) = 8 * p * rest.length + 8 * p := by ring
    omega

theorem byte_hist_sum_invariant_witness :
    (∀ c, c < 256 → ({} : ByteHist).bins.getD c 0 + bytesEq 0x0102030405060701 c < 2 ^ 64) ∧
    (∀ c, c < 256 → bytesIn [1, 2 ^ 63, 0xFFFF] c < 2 ^ 64) ∧
    (5 : Nat) < 2 ^ 64 ∧
    (∀ c, c < 256 →
      bytesInPhase pcg32.rng.toBackend 0xC0FFEED5EED (5 / 2) (Schedule.inOrder 2).order c
        < 2 ^ 64) ∧
    (({} : ByteHist).push_u64 0x0102030405060701).bins.sum = ({} : ByteHist).bins.sum + 8 ∧
    (∀ c, c < 256 → (({} : ByteHist).push_u64 0x0102030405060701).bins.getD c 0
      = ({} : ByteHist).bins.getD c 0 + bytesEq 0x0102030405060701 c) ∧
    (([1, 2 ^ 63, 0xFFFF] : List Nat).foldl ByteHist.push_u64 {}).bins.sum
      = 8 * ([1, 2 ^ 63, 0xFFFF] : List Nat).length ∧
    ∃ u, phase_u64 pcg32.rng.toBackend 0xC0FFEED5EED (5 / 2) (Schedule.inOrder 2).order {}
        = some u ∧
      u.agg_hist.bins.sum = 8 * (5 / 2) * 2 ∧
      u.agg_hist.bins.sum = 8 * u.total_u64 :=
  have h1 : ∀ c, c < 256 →
      ({} : ByteHist).bins.getD c 0 + bytesEq 0x0102030405060701 c < 2 ^ 64 := by
    intro c _
    have := bytesEq_le 0x0102030405060701 c
    rw [empty_getD]
    omega
  have h2 : ∀ c, c < 256 → bytesIn [1, 2 ^ 63, 0xFFFF] c < 2 ^ 64 := by
    intro c _
    have := bytesIn_le [1, 2 ^ 63, 0xFFFF] c
    simp only [List.length_cons, List.length_nil] at this
    omega
  have h3 : ∀ c, c < 256 →
      bytesInPhase pcg32.rng.toBackend 0xC0FFEED5EED (5 / 2) (Schedule.inOrder 2).order c
        < 2 ^ 64 := by
    intro c _
    have := bytesInPhase_le pcg32.rng.toBackend 0xC0FFEED5EED (5 / 2)
      (Schedule.inOrder 2).order c
    rw [(Schedule.inOrder 2).length_order] at this
    omega
  ⟨h1, h2, by decide, h3,
    byte_hist_sum_invariant {} 0x0102030405060701 [1, 2 ^ 63, 0xFFFF] pcg32.rng
      { total := 5, threads := 2 } (Schedule.inOrder 2) h1 h2 (by decide) h3⟩

/-! ## Chi-square -/

theorem foldl_wrap_add (l : List Nat) (t : Nat) (ht : t < 2 ^ 64) :
    l.foldl (fun t v => (t + v) % 2 ^ 64) t = (t + l.sum) % 2 ^ 64 := by
  induction l generalizing t with
  | nil => simp only [List.foldl_nil, List.sum_nil]; omega
  | cons v l ih =>
    simp only [List.foldl_cons, List.sum_cons]
    rw [ih _ (Nat.mod_lt _ (by norm_num))]
    omega

theorem total_eq (h : ByteHist) : h.total = h.bins.sum % 2 ^ 64 := by
  simp only [ByteHist.total]
  rw [foldl_wrap_add _ 0 (by norm_num), Nat.zero_add]

theorem foldl_add_map (g : Nat → ℚ) (l : List Nat) (a : ℚ) :
    l.foldl (fun chi v => chi + g v) a = a + (l.map g).sum := by
  induction l generalizing a with
  | nil => simp
  | cons v l ih =>
    simp only [List.foldl_cons, List.map_cons, List.sum_cons]
    rw [ih]
    ring

theorem chi_square_eq (h : ByteHist) :
    h.chi_square = if h.total = 0 then 0
      else (h.bins.map (fun (v : Nat) => ((v : ℚ) - (h.total : ℚ) / 256) ^ 2
        / ((h.total : ℚ) / 256))).sum := by
  simp only [ByteHist.chi_square]
  split_ifs with h0
  · rfl
  · rw [foldl_add_map (fun (v : Nat) =>
      (((v : ℚ) - (h.total : ℚ) / 256) * ((v : ℚ) - (h.total : ℚ) / 256))
      / ((h.total : ℚ) / 256)), zero_add]
    congr 1
    apply List.map_congr_left
    intro v _
    rw [pow_two]

theorem chi_square_nonneg (h : ByteHist) : 0 ≤ h.chi_square := by
  rw [chi_square_eq]
  split_ifs with h0
  · exact le_refl _
  · apply List.sum_nonneg
    intro y hy
    obtain ⟨v, _, rfl⟩ := List.mem_map.mp hy
    have ht : (0 : ℚ) < (h.total : ℚ) / 256 := by
      have : 0 < h.total := Nat.pos_of_ne_zero h0
      positivity
    positivity

theorem uniform_total (c : Nat) : (ByteHist.uniform c).total = (256 * c) % 2 ^ 64 := by
  rw [total_eq]
  simp only [ByteHist.uniform, List.sum_replicate, smul_eq_mul]

theorem uniform_chi_square (c : Nat) :
    (ByteHist.uniform c).chi_square = if (256 * c) % 2 ^ 64 = 0 then 0
      else 256 * ((((c : ℚ) - (((256 * c) % 2 ^ 64 : Nat) : ℚ) / 256) ^ 2)
        / ((((256 * c) % 2 ^ 64 : Nat) : ℚ) / 256)) := by
  rw [chi_square_eq, uniform_total]
  split_ifs with h0
  · rfl
  · simp only [ByteHist.uniform, List.map_replicate, List.sum_replicate, nsmul_eq_mul]
    norm_num

theorem single_sum (i N : Nat) (hi : i < 256) : (ByteHist.single i N).bins.sum = N := by
  simp only [ByteHist.single, List.sum_set, List.take_replicate, List.drop_replicate,
    List.sum_replicate, List.length_replicate, hi, if_true, smul_eq_mul, Nat.mul_zero,
    Nat.zero_add, Nat.add_zero]

theorem single_map_sum (g : Nat → ℚ) (i N : Nat) (hi : i < 256) :
    ((ByteHist.single i N).bins.map g).sum = g N + 255 * g 0 := by
  simp only [ByteHist.single, List.map_set, List.map_replicate, List.sum_set,
    List.take_replicate, List.drop_replicate, List.sum_replicate, List.length_replicate, hi,
    if_true, nsmul_eq_mul]
  have h1 : min i 256 = i := Nat.min_eq_left (le_of_lt hi)
  have h2 : ((256 - (i + 1) : Nat) : ℚ) = 255 - (i : ℚ) := by
    rw [Nat.cast_sub (by omega)]
    push_cast
    ring
  rw [h1, h2]
  ring

/-! ## C5 -/

/-- C5, as the code has it: `chi_square` computes, with `expected = total/256` for `total`
the sum of the bins reduced modulo `2^64` (the `uint64_t` accumulator), the sum over the
256 bins of `(bin_i - expected)^2 / expected`, and `0` when `total` is zero; it returns
exactly `0` for every uniform histogram (all bins equal to `c`) whose byte total `256*c`
is below `2^64`, `c = 0` included; and in exact arithmetic it is never negative. -/
theorem chi_square_uniform_in_range (h : ByteHist) (c : Nat) (hc : 256 * c < 2 ^ 64) :
    h.total = h.bins.sum % 2 ^ 64 ∧
    (h.chi_square = if h.total = 0 then 0
      else (h.bins.map (fun (v : Nat) => ((v : ℚ) - (h.total : ℚ) / 256) ^ 2
        / ((h.total : ℚ) / 256))).sum) ∧
    (ByteHist.uniform c).chi_square = 0 ∧
    0 ≤ h.chi_square := by
  refine ⟨total_eq h, chi_square_eq h, ?_, chi_square_nonneg h⟩
  rw [uniform_chi_square, Nat.mod_eq_of_lt hc]
  split_ifs with h0
  · rfl
  · push_cast
    have : (c : ℚ) - 256 * (c : ℚ) / 256 = 0 := by ring
    rw [this]
    simp

theorem chi_square_uniform_in_range_witness :
    256 * 3 < 2 ^ 64 ∧
    (ByteHist.single 7 5).total = (ByteHist.single 7 5).bins.sum % 2 ^ 64 ∧
    ((ByteHist.single 7 5).chi_square = if (ByteHist.single 7 5).total = 0 then 0
      else ((ByteHist.single 7 5).bins.map
        (fun (v : Nat) => ((v : ℚ) - ((ByteHist.single 7 5).total : ℚ) / 256) ^ 2
          / (((ByteHist.single 7 5).total : ℚ) / 256))).sum) ∧
    (ByteHist.uniform 3).chi_square = 0 ∧
    0 ≤ (ByteHist.single 7 5).chi_square :=
  ⟨by decide, chi_square_uniform_in_range (ByteHist.single 7 5) 3 (by decide)⟩

/-- C5, counterexample: the uniform histogram with every bin equal to `2^56 + 1` (a value
a `uint64_t` bin can hold) has byte total `2^64 + 256`, which the `uint64_t` accumulator
`total` reduces to `256`; so `expected = 1` and `chi_square` returns `2^120`, not `0`. -/
theorem chi_square_uniform_wraps :
    2 ^ 56 + 1 < 2 ^ 64 ∧
    (ByteHist.uniform (2 ^ 56 + 1)).total = 256 ∧
    (ByteHist.uniform (2 ^ 56 + 1)).chi_square = 2 ^ 120 ∧
    (ByteHist.uniform (2 ^ 56 + 1)).chi_square ≠ 0 := by
  have ht : (256 * (2 ^ 56 + 1)) % 2 ^ 64 = 256 := by norm_num
  have hv : (ByteHist.uniform (2 ^ 56 + 1)).chi_square = 2 ^ 120 := by
    rw [uniform_chi_square, ht]
    norm_num
  refine ⟨by norm_num, ?_, hv, ?_⟩
  · rw [uniform_total, ht]
  · rw [hv]
    positivity

/-! ## C6 -/

/-- C6: for every histogram whose whole mass `N > 0` (a `uint64_t` count) lies in a
single bin `i`, the other 255 bins being zero, `chi_square` in exact arithmetic equals
`255 * N`: it is strictly positive and grows linearly with `N`. -/
theorem chi_square_single_bin (i N : Nat) (hi : i < 256) (hN : 0 < N) (hN64 : N < 2 ^ 64) :
    (ByteHist.single i N).chi_square = 255 * (N : ℚ) ∧
    0 < (ByteHist.single i N).chi_square := by
  have ht : (ByteHist.single i N).total = N := by
    rw [total_eq, single_sum i N hi, Nat.mod_eq_of_lt hN64]
  have hNq : (N : ℚ) ≠ 0 := by positivity
  have hv : (ByteHist.single i N).chi_square = 255 * (N : ℚ) := by
    rw [chi_square_eq, ht, if_neg (by omega),
      single_map_sum (fun (v : Nat) => ((v : ℚ) - (N : ℚ) / 256) ^ 2 / ((N : ℚ) / 256)) i N hi]
    field_simp
    ring
  refine ⟨hv, ?_⟩
  rw [hv]
  positivity

theorem chi_square_single_bin_witness :
    (200 : Nat) < 256 ∧ 0 < (1000 : Nat) ∧ (1000 : Nat) < 2 ^ 64 ∧
    (ByteHist.single 200 1000).chi_square = 255 * ((1000 : Nat) : ℚ) ∧
    0 < (ByteHist.single 200 1000).chi_square :=
  ⟨by decide, by decide, by decide,
    chi_square_single_bin 200 1000 (by decide) (by decide) (by decide)⟩

/-! ## C7 -/

theorem shiftRight11_lt (x : Nat) (hx : x < 2 ^ 64) : x >>> 11 < 2 ^ 53 := by
  rw [Nat.shiftRight_eq_div_pow]
  apply Nat.div_lt_of_lt_mul
  calc x < 2 ^ 64 := hx
    _ = 2 ^ 11 * 2 ^ 53 := by norm_num

theorem toDouble53_eq (x : Nat) : toDouble53 x = ((x >>> 11 : Nat) : ℚ) / 2 ^ 53 := by
  simp only [toDouble53]
  norm_num
  ring

theorem toDouble53_range (x : Nat) (hx : x < 2 ^ 64) :
    0 ≤ toDouble53 x ∧ toDouble53 x < 1 ∧
      ∃ k : Nat, k < 2 ^ 53 ∧ toDouble53 x * 2 ^ 53 = (k : ℚ) := by
  have hlt := shiftRight11_lt x hx
  have hq : ((x >>> 11 : Nat) : ℚ) < 2 ^ 53 := by exact_mod_cast hlt
  rw [toDouble53_eq]
  refine ⟨by positivity, ?_, x >>> 11, hlt, ?_⟩
  · rw [div_lt_one (by positivity)]
    exact hq
  · field_simp

theorem top53_of (R : Rng) (hu : ∀ s, (R.next_u64 s).1 < 2 ^ 64)
    (hd : ∀ s, R.next_double s = (toDouble53 (R.next_u64 s).1, (R.next_u64 s).2)) :
    Top53 R := by
  intro s
  have hr := toDouble53_range _ (hu s)
  rw [hd s]
  exact ⟨hu s, by rw [toDouble53_eq], hr.1, hr.2.1, hr.2.2⟩

theorem pcg32_next_u32_lt (g : pcg32) : (pcg32.next_u32 g).1 < 2 ^ 32 := by
  simp only [pcg32.next_u32]
  apply Nat.or_lt_two_pow
  · rw [Nat.shiftRight_eq_div_pow]
    exact lt_of_le_of_lt (Nat.div_le_self _ _) (Nat.mod_lt _ (by norm_num))
  · exact Nat.mod_lt _ (by norm_num)

theorem pcg32_next_u64_lt (g : pcg32) : (pcg32.next_u64 g).1 < 2 ^ 64 := by
  simp only [pcg32.next_u64]
  apply Nat.or_lt_two_pow
  · exact Nat.mod_lt _ (by norm_num)
  · exact lt_trans (pcg32_next_u32_lt _) (by norm_num)

theorem engine_pair_lt (E : Engine) (g : E.State) : (E.next_u64_pair g).1 < 2 ^ 64 := by
  simp only [Engine.next_u64_pair]
  apply Nat.or_lt_two_pow
  · exact Nat.mod_lt _ (by norm_num)
  · exact Nat.mod_lt _ (by norm_num)

theorem engine_pair_top53 (E : Engine) (init : Nat → E.State) :
    Top53 { State := E.State, init := init, next_u64 := E.next_u64_pair,
            next_double := E.next_double_pair } :=
  top53_of _ (engine_pair_lt E) (fun _ => rfl)

/-- C7: for every built-in backend (`pcg32`, `xoroshiro128pp`, `xoshiro256ss`,
`std_mt19937`, `std_mt19937_64`, `std_minstd_rand`, `std_ranlux48`, the four library
engines being arbitrary) and every generator state, `next_double` returns exactly
`(x >> 11) * 2^-53` for the 64-bit value `x` that `next_u64` returns from that state;
hence the result `r` satisfies `0 <= r < 1` and `r * 2^53` is an integer below `2^53`,
as does `(x >> 11) * (1.0/9007199254740992.0)` for every 64-bit `x`. -/
theorem next_double_top53 (Emt Emt64 Eminstd Eranlux : Engine) :
    Top53 pcg32.rng ∧ Top53 xoroshiro128pp.rng ∧ Top53 xoshiro256ss.rng ∧
    Top53 (std_mt19937 Emt) ∧ Top53 (std_mt19937_64 Emt64) ∧
    Top53 (std_minstd_rand Eminstd) ∧ Top53 (std_ranlux48 Eranlux) ∧
    (∀ x : Nat, x < 2 ^ 64 →
      toDouble53 x = ((x >>> 11 : Nat) : ℚ) / 2 ^ 53 ∧
      0 ≤ toDouble53 x ∧ toDouble53 x < 1 ∧
      ∃ k : Nat, k < 2 ^ 53 ∧ toDouble53 x * 2 ^ 53 = (k : ℚ)) := by
  refine ⟨?_, ?_, ?_, ?_, ?_, ?_, ?_, ?_⟩
  · exact top53_of _ pcg32_next_u64_lt (fun _ => rfl)
  · refine top53_of _ (fun s => ?_) (fun _ => rfl)
    show (xoroshiro128pp.next_u64 s).1 < 2 ^ 64
    simp only [xoroshiro128pp.next_u64]
    exact Nat.mod_lt _ (by norm_num)
  · refine top53_of _ (fun s => ?_) (fun _ => rfl)
    show (xoshiro256ss.next_u64 s).1 < 2 ^ 64
    simp only [xoshiro256ss.next_u64]
    exact Nat.mod_lt _ (by norm_num)
  · exact engine_pair_top53 Emt _
  · refine top53_of _ (fun s => ?_) (fun _ => rfl)
    show (Emt64.next_u64_single s).1 < 2 ^ 64
    simp only [Engine.next_u64_single]
    exact Nat.mod_lt _ (by norm_num)
  · exact engine_pair_top53 Eminstd _
  · exact engine_pair_top53 Eranlux _
  · intro x hx
    exact ⟨toDouble53_eq x, toDouble53_range x hx⟩

/-! ## C8 -/

/-- C8: with the platform a function from path to optional handle and from (handle,
symbol name) to optional pointer, constructing `CSimdLib(path)` succeeds if and only if
the library opens and all four symbols `universal_rng_new`, `universal_rng_next_u64`,
`universal_rng_next_double`, `universal_rng_free` resolve (the object then holds exactly
these pointers and nothing was closed); it fails with the load error when the library
cannot be opened, no symbol being looked up and nothing closed; and it fails with the
symbol error when the library opens but one of the four symbols is absent, the opened
library being closed exactly once, as the last call before the error propagates. -/
theorem csimd_ctor_all_or_nothing (P : Platform) (path : String) :
    ((∃ L, (CSimdLib.ctor P path).1 = .ok L) ↔
      ∃ h, P.open_library path = some h ∧
        (P.load_symbol h "universal_rng_new").isSome ∧
        (P.load_symbol h "universal_rng_next_u64").isSome ∧
        (P.load_symbol h "universal_rng_next_double").isSome ∧
        (P.load_symbol h "universal_rng_free").isSome) ∧
    (∀ L, (CSimdLib.ctor P path).1 = .ok L →
      P.open_library path = some L.lib ∧
      P.load_symbol L.lib "universal_rng_new" = some L.p_new ∧
      P.load_symbol L.lib "universal_rng_next_u64" = some L.p_next_u64 ∧
      P.load_symbol L.lib "universal_rng_next_double" = some L.p_next_double ∧
      P.load_symbol L.lib "universal_rng_free" = some L.p_free ∧
      (CSimdLib.ctor P path).2.filter Call.isClose = []) ∧
    (P.open_library path = none →
      (CSimdLib.ctor P path).1 = .error ("failed to open C-SIMD-RNG library at: " ++ path) ∧
      (CSimdLib.ctor P path).2.filter Call.isLookup = [] ∧
      (CSimdLib.ctor P path).2.filter Call.isClose = []) ∧
    (∀ h, P.open_library path = some h →
      ((P.load_symbol h "universal_rng_new").isNone ∨
       (P.load_symbol h "universal_rng_next_u64").isNone ∨
       (P.load_symbol h "universal_rng_next_double").isNone ∨
       (P.load_symbol h "universal_rng_free").isNone) →
      (CSimdLib.ctor P path).1
        = .error "failed to resolve required symbols in C-SIMD-RNG lib" ∧
      (CSimdLib.ctor P path).2.filter Call.isClose = [.close_library h] ∧
      (CSimdLib.ctor P path).2.getLast? = some (.close_library h)) := by
  refine ⟨?_, ?_, ?_, ?_⟩
  · constructor
    · rintro ⟨L, hL⟩
      simp only [CSimdLib.ctor] at hL
      cases ho : P.open_library path with
      | none => rw [ho] at hL; simp at hL
      | some h =>
        refine ⟨h, rfl, ?_⟩
        rw [ho] at hL
        simp only at hL
        cases h1 : P.load_symbol h "universal_rng_new" <;>
        cases h2 : P.load_symbol h "universal_rng_next_u64" <;>
        cases h3 : P.load_symbol h "universal_rng_next_double" <;>
        cases h4 : P.load_symbol h "universal_rng_free" <;>
        simp [h1, h2, h3, h4] at hL ⊢
    · rintro ⟨h, ho, h1, h2, h3, h4⟩
      obtain ⟨a, ha⟩ := Option.isSome_iff_exists.mp h1
      obtain ⟨b, hb⟩ := Option.isSome_iff_exists.mp h2
      obtain ⟨c, hc⟩ := Option.isSome_iff_exists.mp h3
      obtain ⟨d, hd⟩ := Option.isSome_iff_exists.mp h4
      exact ⟨{ lib := h, p_new := a, p_next_u64 := b, p_next_double := c, p_free := d },
        by simp only [CSimdLib.ctor, ho, ha, hb, hc, hd]⟩
  · intro L hL
    simp only [CSimdLib.ctor] at hL ⊢
    cases ho : P.open_library path with
    | none => rw [ho] at hL; simp at hL
    | some h =>
      rw [ho] at hL
      simp only at hL ⊢
      cases h1 : P.load_symbol h "universal_rng_new" <;>
      cases h2 : P.load_symbol h "universal_rng_next_u64" <;>
      cases h3 : P.load_symbol h "universal_rng_next_double" <;>
      cases h4 : P.load_symbol h "universal_rng_free" <;>
      simp only [h1, h2, h3, h4, Except.ok.injEq, reduceCtorEq] at hL
      subst hL
      simp [h1, h2, h3, h4, Call.isClose]
  · intro ho
    simp [CSimdLib.ctor, ho, Call.isLookup, Call.isClose]
  · intro h ho hmiss
    simp only [CSimdLib.ctor, ho]
    cases h1 : P.load_symbol h "universal_rng_new" <;>
    cases h2 : P.load_symbol h "universal_rng_next_u64" <;>
    cases h3 : P.load_symbol h "universal_rng_next_double" <;>
    cases h4 : P.load_symbol h "universal_rng_free" <;>
    simp [h1, h2, h3, h4, Call.isClose] at hmiss ⊢

/-! ## The statics of `bench_f64` across a phase -/

theorem mergeStep_n (g st : RunningStats) (hg : g.n < 2 ^ 64) :
    (mergeStep g st).n = (g.n + st.n) % 2 ^ 64 := by
  simp only [mergeStep]
  split_ifs with h
  · rfl
  · have : st.n = 0 := by simpa using h
    rw [this]
    omega

theorem bench_f64_some (B : Backend) (seed p tid : Nat) (hp : p < 2 ^ 64) (st : RunningStats)
    (loc : Nat) (h : bench_f64 B seed p tid = some (st, loc)) : st.n = p ∧ loc = p := by
  simp only [bench_f64] at h
  cases hc : B.create (splitmix64_next (seeder_f64 seed tid)).1 with
  | none => rw [hc] at h; simp at h
  | some rng =>
    rw [hc] at h
    simp only [Option.some.injEq] at h
    have h1 := draw_f64_n_zero B p rng hp
    have h2 := draw_f64_local_zero B p rng {} hp
    rw [h] at h1 h2
    exact ⟨h1, h2⟩

theorem phase_f64_statics_n (B : Backend) (seed p : Nat) (hp : p < 2 ^ 64) (order : List Nat)
    (a f : F64Agg) (ha : a.statics.n < 2 ^ 64) (h : phase_f64 B seed p order a = some f) :
    f.statics.n = (a.statics.n + p * order.length) % 2 ^ 64 := by
  induction order generalizing a with
  | nil =>
    simp only [phase_f64, Option.some.injEq] at h
    rw [← h]
    simp only [List.length_nil, Nat.mul_zero, Nat.add_zero]
    omega
  | cons tid rest ih =>
    simp only [phase_f64] at h
    cases hb : bench_f64 B seed p tid with
    | none => rw [hb] at h; simp at h
    | some r =>
      obtain ⟨st, loc⟩ := r
      rw [hb] at h
      simp only at h
      obtain ⟨hn, _⟩ := bench_f64_some B seed p tid hp st loc hb
      have hm : (a.report st loc).statics.n = (a.statics.n + p) % 2 ^ 64 := by
        simp only [F64Agg.report]
        rw [mergeStep_n _ _ ha, hn]
      rw [ih (a.report st loc) (by rw [hm]; exact Nat.mod_lt _ (by norm_num)) h, hm]
      simp only [List.length_cons, Nat.mul_add, Nat.mul_one]
      omega

theorem run_bench_fixed_ok (R : Rng) (name : String) (cmd : Cmd) (statics : RunningStats)
    (su sf : Schedule cmd.threads) (hT : cmd.total < 2 ^ 64) (hW : 1 ≤ cmd.threads) :
    ∃ r statics',
      run_bench_fixed R name cmd statics su sf = .ok (r, statics') ∧
      r.name = name ∧
      r.total_u64 = cmd.total / cmd.threads * cmd.threads ∧
      r.total_f64 = cmd.total / cmd.threads * cmd.threads ∧
      (statics.n < 2 ^ 64 →
        statics'.n = (statics.n + cmd.total / cmd.threads * cmd.threads) % 2 ^ 64) := by
  have hp : cmd.total / cmd.threads < 2 ^ 64 :=
    lt_of_le_of_lt (Nat.div_le_self _ _) hT
  have hmul : cmd.total / cmd.threads * cmd.threads ≤ cmd.total := Nat.div_mul_le_self _ _
  obtain ⟨u, hu⟩ := phase_u64_fixed_isSome R cmd.seed (cmd.total / cmd.threads) su.order {}
  obtain ⟨f, hf⟩ := phase_f64_fixed_isSome R cmd.seed (cmd.total / cmd.threads) sf.order
    { statics := statics }
  have hut : u.total_u64 = cmd.total / cmd.threads * cmd.threads := by
    rcases phase_u64_total _ _ _ hp _ _ _ hu with h1 | ⟨h0, _⟩
    · rw [h1, su.length_order]
      show (0 + _) % 2 ^ 64 = _
      rw [Nat.zero_add]
      exact Nat.mod_eq_of_lt (lt_of_le_of_lt hmul hT)
    · have := su.length_order
      rw [h0] at this
      simp only [List.length_nil] at this
      omega
  have hft : f.total_f64 = cmd.total / cmd.threads * cmd.threads := by
    rcases phase_f64_total _ _ _ hp _ _ _ hf with h1 | ⟨h0, _⟩
    · rw [h1, sf.length_order]
      show (0 + _) % 2 ^ 64 = _
      rw [Nat.zero_add]
      exact Nat.mod_eq_of_lt (lt_of_le_of_lt hmul hT)
    · have := sf.length_order
      rw [h0] at this
      simp only [List.length_nil] at this
      omega
  refine ⟨{ name := name, total_u64 := u.total_u64, total_f64 := f.total_f64,
            mean_f64 := f.agg_stats.mean, var_f64 := f.agg_stats.variance,
            chi2_bytes := u.agg_hist.chi_square, threads := cmd.threads },
          f.statics, ?_, rfl, hut, hft, ?_⟩
  · simp only [run_bench_fixed, run_bench, hu, hf]
    rw [if_neg (by omega)]
  · intro hs
    have := phase_f64_statics_n _ _ _ hp _ _ _ hs hf
    rw [sf.length_order] at this
    exact this

/-! ## The statics in a run of `main` -/

/-- The code does not reset the statics: an invocation of `run_bench_fixed<RNG>` adds
`per_thread * W` to the `global_n` it found and leaves it there. `main` calls every
instantiation at most once, so no call of a run finds such values; were
`run_bench_fixed<pcg32>` called twice with `total = 2`, `threads = 1` and the default
seed, the second call would find `global_n = 2` and report another `var_f64` for the same
two doubles. -/
theorem second_invocation_reuses_statics :
    (∀ (R : Rng) (name : String) (cmd : Cmd) (statics : RunningStats)
        (su sf : Schedule cmd.threads),
      cmd.total < 2 ^ 64 → 1 ≤ cmd.threads → statics.n < 2 ^ 64 →
      ∃ r statics', run_bench_fixed R name cmd statics su sf = .ok (r, statics') ∧
        statics'.n = (statics.n + cmd.total / cmd.threads * cmd.threads) % 2 ^ 64) ∧
    ∃ statics r1 r2,
      run_bench_fixed_twice pcg32.rng "pcg32" { total := 2, threads := 1 }
        (Schedule.inOrder 1) (Schedule.inOrder 1) (Schedule.inOrder 1) (Schedule.inOrder 1)
        = .ok (statics, r1, r2) ∧
      statics.n = 2 ∧ statics ≠ {} ∧ r1.total_f64 = 2 ∧ r2.total_f64 = 2 ∧
      r1.var_f64 ≠ 0 ∧ r2.var_f64 ≠ r1.var_f64 := by
  constructor
  · intro R name cmd statics su sf hT hW hs
    obtain ⟨r, st, h1, _, _, _, h2⟩ := run_bench_fixed_ok R name cmd statics su sf hT hW
    exact ⟨r, st, h1, h2 hs⟩
  · refine ⟨_, _, _, rfl, ?_, ?_, ?_, ?_, ?_, ?_⟩
    · with_unfolding_all decide
    · with_unfolding_all decide
    · with_unfolding_all decide
    · with_unfolding_all decide
    · with_unfolding_all decide
    · with_unfolding_all decide

/-! ## `parse` and `main` -/

theorem hw_threads_pos (L : StdLib) : 1 ≤ hw_threads L := by
  simp only [hw_threads]
  split_ifs with h
  · omega
  · exact le_refl _

theorem parseArgs_total (L : StdLib) (v : String) (t : Nat) (rest : List String) (c : Cmd)
    (hv : L.stoull v = some t) :
    parseArgs L ("--total" :: v :: rest) c = parseArgs L rest { c with total := t % 2 ^ 64 } := by
  rw [parseArgs]
  simp [hv]

theorem with_default_gens_fields (cmd : Cmd) :
    (with_default_gens cmd).total = cmd.total ∧
    (with_default_gens cmd).threads = cmd.threads ∧
    (with_default_gens cmd).csimd_path = cmd.csimd_path := by
  simp only [with_default_gens]
  split_ifs <;> exact ⟨rfl, rfl, rfl⟩

theorem bench_if_wanted_ok (sch : Scheduler) (cmd : Cmd) (tag name : String) (R : Rng)
    (hT : cmd.total < 2 ^ 64) (hW : 1 ≤ cmd.threads) :
    ∃ r : BenchResult, r.name = name ∧
      r.total_u64 = cmd.total / cmd.threads * cmd.threads ∧
      r.total_f64 = cmd.total / cmd.threads * cmd.threads ∧
      ∀ results, bench_if_wanted sch cmd tag name R results
        = .ok (if wants cmd tag then results ++ [r] else results) := by
  obtain ⟨r, st, h1, hn, hu, hf, _⟩ := run_bench_fixed_ok R name cmd {}
    (sch.u64 name cmd.threads) (sch.f64 name cmd.threads) hT hW
  refine ⟨r, hn, hu, hf, ?_⟩
  intro results
  simp only [bench_if_wanted, h1]
  split_ifs <;> rfl

theorem bench_csimd_if_wanted_skip (P : Platform) (sch : Scheduler) (cmd : Cmd)
    (results : List BenchResult) (hpath : cmd.csimd_path = "") :
    bench_csimd_if_wanted P sch cmd results = .ok results := by
  simp only [bench_csimd_if_wanted, hpath]
  split_ifs <;> rfl

theorem mem_push_if (w : Bool) (rs : List BenchResult) (x r : BenchResult)
    (h : r ∈ (if w = true then rs ++ [x] else rs)) : r ∈ rs ∨ r = x := by
  cases w
  · left; simpa using h
  · simpa using h

theorem run_all_fixed (E : Engines) (P : Platform) (sch : Scheduler) (cmd : Cmd)
    (hT : cmd.total < 2 ^ 64) (hW : 1 ≤ cmd.threads) (hpath : cmd.csimd_path = "") :
    ∃ rs, run_all E P sch cmd = .ok rs ∧
      rs.map (fun r => r.name)
        = (fixed_backends.filter (fun p => wants (with_default_gens cmd) p.1)).map
            (fun p => p.2) ∧
      ∀ r ∈ rs, r.total_u64 = cmd.total / cmd.threads * cmd.threads ∧
        r.total_f64 = cmd.total / cmd.threads * cmd.threads := by
  obtain ⟨ht, hw, hp⟩ := with_default_gens_fields cmd
  have hT' : (with_default_gens cmd).total < 2 ^ 64 := by rw [ht]; exact hT
  have hW' : 1 ≤ (with_default_gens cmd).threads := by rw [hw]; exact hW
  obtain ⟨r1, n1, u1, f1, e1⟩ := bench_if_wanted_ok sch (with_default_gens cmd)
    "std_mt19937" "std_mt19937" (std_mt19937 E.mt19937) hT' hW'
  obtain ⟨r2, n2, u2, f2, e2⟩ := bench_if_wanted_ok sch (with_default_gens cmd)
    "std_mt19937_64" "std_mt19937_64" (std_mt19937_64 E.mt19937_64) hT' hW'
  obtain ⟨r3, n3, u3, f3, e3⟩ := bench_if_wanted_ok sch (with_default_gens cmd)
    "std_minstd" "minstd_rand" (std_minstd_rand E.minstd_rand) hT' hW'
  obtain ⟨r4, n4, u4, f4, e4⟩ := bench_if_wanted_ok sch (with_default_gens cmd)
    "ranlux48" "ranlux48" (std_ranlux48 E.ranlux48) hT' hW'
  obtain ⟨r5, n5, u5, f5, e5⟩ := bench_if_wanted_ok sch (with_default_gens cmd)
    "xoroshiro128pp" "xoroshiro128pp" xoroshiro128pp.rng hT' hW'
  obtain ⟨r6, n6, u6, f6, e6⟩ := bench_if_wanted_ok sch (with_default_gens cmd)
    "pcg32" "pcg32" pcg32.rng hT' hW'
  rw [ht, hw] at u1 f1 u2 f2 u3 f3 u4 f4 u5 f5 u6 f6
  simp only [run_all, e1, e2, e3, e4, e5, e6, Except.bind]
  rw [bench_csimd_if_wanted_skip P sch _ _ (by rw [hp]; exact hpath)]
  refine ⟨_, rfl, ?_, ?_⟩
  · simp only [fixed_backends, List.filter_cons, List.filter_nil]
    cases wants (with_default_gens cmd) "std_mt19937" <;>
    cases wants (with_default_gens cmd) "std_mt19937_64" <;>
    cases wants (with_default_gens cmd) "std_minstd" <;>
    cases wants (with_default_gens cmd) "ranlux48" <;>
    cases wants (with_default_gens cmd) "xoroshiro128pp" <;>
    cases wants (with_default_gens cmd) "pcg32" <;>
    simp [n1, n2, n3, n4, n5, n6]
  · intro r hr
    rcases mem_push_if _ _ _ _ hr with h | h
    · rcases mem_push_if _ _ _ _ h with h | h
      · rcases mem_push_if _ _ _ _ h with h | h
        · rcases mem_push_if _ _ _ _ h with h | h
          · rcases mem_push_if _ _ _ _ h with h | h
            · rcases mem_push_if _ _ _ _ h with h | h
              · exact absurd h (List.not_mem_nil r)
              · subst h; exact ⟨u1, f1⟩
            · subst h; exact ⟨u2, f2⟩
          · subst h; exact ⟨u3, f3⟩
        · subst h; exact ⟨u4, f4⟩
      · subst h; exact ⟨u5, f5⟩
    · subst h; exact ⟨u6, f6⟩

/-! ## The dynamic backend in `main` -/

theorem phase_u64_none (B : Backend) (seed p : Nat) (order : List Nat) (a : U64Agg)
    (h : phase_u64 B seed p order a = none) : ∃ s, B.create s = none := by
  induction order generalizing a with
  | nil =>
    simp only [phase_u64] at h
    cases h
  | cons tid rest ih =>
    simp only [phase_u64] at h
    cases hb : bench_u64 B seed p tid with
    | none =>
      simp only [bench_u64] at hb
      cases hc : B.create (splitmix64_next (seeder_u64 seed tid)).1 with
      | none => exact ⟨_, hc⟩
      | some rng =>
        rw [hc] at hb
        cases hb
    | some r =>
      rw [hb] at h
      exact ih _ h

theorem phase_f64_none (B : Backend) (seed p : Nat) (order : List Nat) (a : F64Agg)
    (h : phase_f64 B seed p order a = none) : ∃ s, B.create s = none := by
  induction order generalizing a with
  | nil =>
    simp only [phase_f64] at h
    cases h
  | cons tid rest ih =>
    simp only [phase_f64] at h
    cases hb : bench_f64 B seed p tid with
    | none =>
      simp only [bench_f64] at hb
      cases hc : B.create (splitmix64_next (seeder_f64 seed tid)).1 with
      | none => exact ⟨_, hc⟩
      | some rng =>
        rw [hc] at hb
        cases hb
    | some r =>
      rw [hb] at h
      exact ih _ h

theorem run_bench_cases (B : Backend) (name : String) (cmd : Cmd) (statics : RunningStats)
    (su sf : Schedule cmd.threads) (hT : cmd.total < 2 ^ 64) (hW : 1 ≤ cmd.threads) :
    (run_bench B name cmd statics su sf = .error .uncaught ∧ ∃ s, B.create s = none) ∨
    ∃ r statics', run_bench B name cmd statics su sf = .ok (r, statics') ∧
      r.total_u64 = cmd.total / cmd.threads * cmd.threads ∧
      r.total_f64 = cmd.total / cmd.threads * cmd.threads := by
  have hp : cmd.total / cmd.threads < 2 ^ 64 :=
    lt_of_le_of_lt (Nat.div_le_self _ _) hT
  have hmul : cmd.total / cmd.threads * cmd.threads ≤ cmd.total := Nat.div_mul_le_self _ _
  have hmod : (0 + cmd.total / cmd.threads * cmd.threads) % 2 ^ 64
      = cmd.total / cmd.threads * cmd.threads := by
    rw [Nat.zero_add]
    exact Nat.mod_eq_of_lt (lt_of_le_of_lt hmul hT)
  simp only [run_bench]
  rw [if_neg (by omega)]
  cases hu : phase_u64 B cmd.seed (cmd.total / cmd.threads) su.order {} with
  | none => exact Or.inl ⟨rfl, phase_u64_none _ _ _ _ _ hu⟩
  | some u =>
    cases hf : phase_f64 B cmd.seed (cmd.total / cmd.threads) sf.order
        { statics := statics } with
    | none => exact Or.inl ⟨rfl, phase_f64_none _ _ _ _ _ hf⟩
    | some f =>
      right
      refine ⟨_, _, rfl, ?_, ?_⟩
      · show u.total_u64 = _
        rcases phase_u64_total _ _ _ hp _ _ _ hu with h1 | ⟨h0, _⟩
        · rw [h1, su.length_order]
          exact hmod
        · have := su.length_order
          rw [h0] at this
          simp only [List.length_nil] at this
          omega
      · show f.total_f64 = _
        rcases phase_f64_total _ _ _ hp _ _ _ hf with h1 | ⟨h0, _⟩
        · rw [h1, sf.length_order]
          exact hmod
        · have := sf.length_order
          rw [h0] at this
          simp only [List.length_nil] at this
          omega

theorem bench_csimd_if_wanted_cases (P : Platform) (sch : Scheduler) (cmd : Cmd)
    (results : List BenchResult) (hT : cmd.total < 2 ^ 64) (hW : 1 ≤ cmd.threads) :
    (bench_csimd_if_wanted P sch cmd results = .error .uncaught ∧ cmd.csimd_path ≠ "" ∧
      ∃ lib seed, (CSimdLib.ctor P cmd.csimd_path).1 = .ok lib ∧
        P.call_new lib.p_new seed cmd.csimd_algo cmd.csimd_bitwidth = none) ∨
    bench_csimd_if_wanted P sch cmd results = .ok results ∨
    ∃ r : BenchResult, r.total_u64 = cmd.total / cmd.threads * cmd.threads ∧
      r.total_f64 = cmd.total / cmd.threads * cmd.threads ∧
      bench_csimd_if_wanted P sch cmd results = .ok (results ++ [r]) := by
  simp only [bench_csimd_if_wanted]
  split
  · split
    · exact Or.inr (Or.inl rfl)
    · rename_i hpath
      simp only [run_bench_csimd]
      cases hc : (CSimdLib.ctor P cmd.csimd_path).1 with
      | error what => exact Or.inr (Or.inl rfl)
      | ok lib =>
        simp only
        rcases run_bench_cases (lib.Instance cmd.csimd_algo cmd.csimd_bitwidth)
          "csimd_universal" cmd {} (sch.u64 "csimd_universal" cmd.threads)
          (sch.f64 "csimd_universal" cmd.threads) hT hW with ⟨he, s, hs⟩ | ⟨r, st, hr, hu, hf⟩
        · rw [he]
          exact Or.inl ⟨rfl, hpath, lib, s, rfl, hs⟩
        · rw [hr]
          exact Or.inr (Or.inr ⟨r, hu, hf, rfl⟩)
  · exact Or.inr (Or.inl rfl)

theorem run_all_prefix (E : Engines) (P : Platform) (sch : Scheduler) (cmd : Cmd)
    (hT : cmd.total < 2 ^ 64) (hW : 1 ≤ cmd.threads) :
    ∃ rs, run_all E P sch cmd = bench_csimd_if_wanted P sch (with_default_gens cmd) rs ∧
      ∀ r ∈ rs, r.total_u64 = cmd.total / cmd.threads * cmd.threads ∧
        r.total_f64 = cmd.total / cmd.threads * cmd.threads := by
  obtain ⟨ht, hw, _⟩ := with_default_gens_fields cmd
  have hT' : (with_default_gens cmd).total < 2 ^ 64 := by rw [ht]; exact hT
  have hW' : 1 ≤ (with_default_gens cmd).threads := by rw [hw]; exact hW
  obtain ⟨r1, n1, u1, f1, e1⟩ := bench_if_wanted_ok sch (with_default_gens cmd)
    "std_mt19937" "std_mt19937" (std_mt19937 E.mt19937) hT' hW'
  obtain ⟨r2, n2, u2, f2, e2⟩ := bench_if_wanted_ok sch (with_default_gens cmd)
    "std_mt19937_64" "std_mt19937_64" (std_mt19937_64 E.mt19937_64) hT' hW'
  obtain ⟨r3, n3, u3, f3, e3⟩ := bench_if_wanted_ok sch (with_default_gens cmd)
    "std_minstd" "minstd_rand" (std_minstd_rand E.minstd_rand) hT' hW'
  obtain ⟨r4, n4, u4, f4, e4⟩ := bench_if_wanted_ok sch (with_default_gens cmd)
    "ranlux48" "ranlux48" (std_ranlux48 E.ranlux48) hT' hW'
  obtain ⟨r5, n5, u5, f5, e5⟩ := bench_if_wanted_ok sch (with_default_gens cmd)
    "xoroshiro128pp" "xoroshiro128pp" xoroshiro128pp.rng hT' hW'
  obtain ⟨r6, n6, u6, f6, e6⟩ := bench_if_wanted_ok sch (with_default_gens cmd)
    "pcg32" "pcg32" pcg32.rng hT' hW'
  rw [ht, hw] at u1 f1 u2 f2 u3 f3 u4 f4 u5 f5 u6 f6
  simp only [run_all, e1, e2, e3, e4, e5, e6, Except.bind]
  refine ⟨_, rfl, ?_⟩
  intro r hr
  rcases mem_push_if _ _ _ _ hr with h | h
  · rcases mem_push_if _ _ _ _ h with h | h
    · rcases mem_push_if _ _ _ _ h with h | h
      · rcases mem_push_if _ _ _ _ h with h | h
        · rcases mem_push_if _ _ _ _ h with h | h
          · rcases mem_push_if _ _ _ _ h with h | h
            · exact absurd h (List.not_mem_nil r)
            · subst h; exact ⟨u1, f1⟩
          · subst h; exact ⟨u2, f2⟩
        · subst h; exact ⟨u3, f3⟩
      · subst h; exact ⟨u4, f4⟩
    · subst h; exact ⟨u5, f5⟩
  · subst h; exact ⟨u6, f6⟩

theorem run_all_cases (E : Engines) (P : Platform) (sch : Scheduler) (cmd : Cmd)
    (hT : cmd.total < 2 ^ 64) (hW : 1 ≤ cmd.threads) :
    (∃ rs, run_all E P sch cmd = .ok rs ∧
      ∀ r ∈ rs, r.total_u64 = cmd.total / cmd.threads * cmd.threads ∧
        r.total_f64 = cmd.total / cmd.threads * cmd.threads) ∨
    (run_all E P sch cmd = .error .uncaught ∧ cmd.csimd_path ≠ "" ∧
      ∃ lib seed, (CSimdLib.ctor P cmd.csimd_path).1 = .ok lib ∧
        P.call_new lib.p_new seed cmd.csimd_algo cmd.csimd_bitwidth = none) := by
  have hfields : (with_default_gens cmd).total = cmd.total ∧
      (with_default_gens cmd).threads = cmd.threads ∧
      (with_default_gens cmd).csimd_path = cmd.csimd_path ∧
      (with_default_gens cmd).csimd_algo = cmd.csimd_algo ∧
      (with_default_gens cmd).csimd_bitwidth = cmd.csimd_bitwidth := by
    simp only [with_default_gens]
    split_ifs <;> exact ⟨rfl, rfl, rfl, rfl, rfl⟩
  obtain ⟨ht, hw, hp, hal, hbw⟩ := hfields
  have hT' : (with_default_gens cmd).total < 2 ^ 64 := by rw [ht]; exact hT
  have hW' : 1 ≤ (with_default_gens cmd).threads := by rw [hw]; exact hW
  obtain ⟨rs, hrun, hrs⟩ := run_all_prefix E P sch cmd hT hW
  rw [hrun]
  rcases bench_csimd_if_wanted_cases P sch (with_default_gens cmd) rs hT' hW' with
    ⟨he, hpath, lib, seed, hlib, hnew⟩ | hok | ⟨r, hu, hf, hok⟩
  · right
    rw [hp] at hpath hlib
    rw [hal, hbw] at hnew
    exact ⟨he, hpath, lib, seed, hlib, hnew⟩
  · left
    exact ⟨rs, hok, hrs⟩
  · left
    rw [ht, hw] at hu hf
    refine ⟨rs ++ [r], hok, ?_⟩
    intro r' hr'
    rcases List.mem_append.mp hr' with h | h
    · exact hrs r' h
    · simp only [List.mem_singleton] at h
      subst h
      exact ⟨hu, hf⟩

/-! ## C10 -/

/-- C10, as the code has it: a zero total sample count is not rejected. `parse` consumes
`--total 0` like any other value and goes on with `total = 0`, and `main` then runs every
selected backend with `per_thread = 0`. For every configuration with `total = 0`, at least
one worker and no `--csimd-lib`, `main` finishes normally with one `BenchResult` per
selected built-in backend, each reporting `total_u64 = total_f64 = 0`; in particular on
the argument list `prog --total 0` it reports the six built-in backends of the default
list. With a `--csimd-lib` it either finishes normally, every `BenchResult` reporting zero
totals, or the process terminates on the exception of a worker of the dynamic backend
whose `universal_rng_new` returned null, as on `rng_bench --total 0 --csimd-lib lib.so`
with such a library. -/
theorem zero_total_is_benchmarked (L : StdLib) (E : Engines) (P : Platform)
    (sch : Scheduler) (prog : String) (rest : List String) (c cmd : Cmd)
    (hz : L.stoull "0" = some 0)
    (hcmd : cmd.total = 0) (hW : 1 ≤ cmd.threads) (hpath : cmd.csimd_path = "") :
    parseArgs L ("--total" :: "0" :: rest) c = parseArgs L rest { c with total := 0 } ∧
    parse L [prog, "--total", "0"] = .ok { total := 0, threads := hw_threads L } ∧
    (∃ rs, run_all E P sch cmd = .ok rs ∧
      rs.map (fun r => r.name)
        = (fixed_backends.filter (fun p => wants (with_default_gens cmd) p.1)).map
            (fun p => p.2) ∧
      ∀ r ∈ rs, r.total_u64 = 0 ∧ r.total_f64 = 0) ∧
    (∃ rs, main L E P sch [prog, "--total", "0"] = .ok rs ∧
      rs.map (fun r => r.name)
        = ["std_mt19937", "std_mt19937_64", "minstd_rand", "ranlux48", "xoroshiro128pp",
           "pcg32"] ∧
      ∀ r ∈ rs, r.total_u64 = 0 ∧ r.total_f64 = 0) ∧
    (∀ cmd' : Cmd, cmd'.total = 0 → 1 ≤ cmd'.threads →
      (∃ rs, run_all E P sch cmd' = .ok rs ∧
        ∀ r ∈ rs, r.total_u64 = 0 ∧ r.total_f64 = 0) ∨
      (run_all E P sch cmd' = .error .uncaught ∧ cmd'.csimd_path ≠ "" ∧
        ∃ lib seed, (CSimdLib.ctor P cmd'.csimd_path).1 = .ok lib ∧
          P.call_new lib.p_new seed cmd'.csimd_algo cmd'.csimd_bitwidth = none)) ∧
    main StdLib.digits Engines.counters Platform.null_new Scheduler.inOrder
      ["rng_bench", "--total", "0", "--csimd-lib", "lib.so"] = .error .uncaught := by
  have hstep : ∀ (rest : List String) (c : Cmd),
      parseArgs L ("--total" :: "0" :: rest) c = parseArgs L rest { c with total := 0 } := by
    intro rest c
    rw [parseArgs_total L "0" 0 rest c hz, Nat.zero_mod]
  have hparse : parse L [prog, "--total", "0"] = .ok { total := 0, threads := hw_threads L } := by
    simp only [parse, List.drop_succ_cons, List.drop_zero]
    rw [hstep]
    rfl
  have hzero : ∀ W : Nat, 0 / W * W = 0 := by
    intro W
    rw [Nat.zero_div, Nat.zero_mul]
  refine ⟨hstep rest c, hparse, ?_, ?_, ?_, ?_⟩
  rotate_left 2
  · intro cmd' hcmd' hW'
    rcases run_all_cases E P sch cmd' (by rw [hcmd']; norm_num) hW' with
      ⟨rs, h1, h2⟩ | h
    · left
      refine ⟨rs, h1, ?_⟩
      intro r hr
      have := h2 r hr
      rw [hcmd', hzero] at this
      exact this
    · right
      exact h
  · with_unfolding_all rfl
  · obtain ⟨rs, h1, h2, h3⟩ := run_all_fixed E P sch cmd (by rw [hcmd]; norm_num) hW hpath
    refine ⟨rs, h1, h2, ?_⟩
    intro r hr
    have := h3 r hr
    rw [hcmd, hzero] at this
    exact this
  · obtain ⟨rs, h1, h2, h3⟩ := run_all_fixed E P sch { total := 0, threads := hw_threads L }
      (by norm_num) (hw_threads_pos L) rfl
    refine ⟨rs, ?_, ?_, ?_⟩
    · simp only [main, hparse, Except.bind]
      exact h1
    · rw [h2]
      rfl
    · intro r hr
      have := h3 r hr
      rw [hzero] at this
      exact this

theorem zero_total_is_benchmarked_witness :
    StdLib.digits.stoull "0" = some 0 ∧
    ({ total := 0, threads := 2, gens := ["pcg32"] } : Cmd).total = 0 ∧
    1 ≤ ({ total := 0, threads := 2, gens := ["pcg32"] } : Cmd).threads ∧
    ({ total := 0, threads := 2, gens := ["pcg32"] } : Cmd).csimd_path = "" ∧
    parseArgs StdLib.digits ("--total" :: "0" :: ["--threads", "2"]) { threads := 4 }
      = parseArgs StdLib.digits ["--threads", "2"] { ({ threads := 4 } : Cmd) with total := 0 } ∧
    parse StdLib.digits ["rng_bench", "--total", "0"]
      = .ok { total := 0, threads := hw_threads StdLib.digits } ∧
    (∃ rs, run_all Engines.counters Platform.bare Scheduler.inOrder
        { total := 0, threads := 2, gens := ["pcg32"] } = .ok rs ∧
      rs.map (fun r => r.name)
        = (fixed_backends.filter (fun p => wants (with_default_gens
            { total := 0, threads := 2, gens := ["pcg32"] }) p.1)).map (fun p => p.2) ∧
      ∀ r ∈ rs, r.total_u64 = 0 ∧ r.total_f64 = 0) ∧
    (∃ rs, main StdLib.digits Engines.counters Platform.bare Scheduler.inOrder
        ["rng_bench", "--total", "0"] = .ok rs ∧
      rs.map (fun r => r.name)
        = ["std_mt19937", "std_mt19937_64", "minstd_rand", "ranlux48", "xoroshiro128pp",
           "pcg32"] ∧
      ∀ r ∈ rs, r.total_u64 = 0 ∧ r.total_f64 = 0) ∧
    (∀ cmd' : Cmd, cmd'.total = 0 → 1 ≤ cmd'.threads →
      (∃ rs, run_all Engines.counters Platform.bare Scheduler.inOrder cmd' = .ok rs ∧
        ∀ r ∈ rs, r.total_u64 = 0 ∧ r.total_f64 = 0) ∨
      (run_all Engines.counters Platform.bare Scheduler.inOrder cmd' = .error .uncaught ∧
        cmd'.csimd_path ≠ "" ∧
        ∃ lib seed, (CSimdLib.ctor Platform.bare cmd'.csimd_path).1 = .ok lib ∧
          Platform.bare.call_new lib.p_new seed cmd'.csimd_algo cmd'.csimd_bitwidth
            = none)) ∧
    main StdLib.digits Engines.counters Platform.null_new Scheduler.inOrder
      ["rng_bench", "--total", "0", "--csimd-lib", "lib.so"] = .error .uncaught :=
  ⟨by decide, rfl, by decide, rfl,
    zero_total_is_benchmarked StdLib.digits Engines.counters Platform.bare Scheduler.inOrder
      "rng_bench" ["--threads", "2"] { threads := 4 }
      { total := 0, threads := 2, gens := ["pcg32"] } (by decide) rfl (by decide) rfl⟩

/-- C10, counterexample: on the argument list `rng_bench --total 0` (decimal conversions,
four hardware threads, no `--csimd-lib`), `parse` returns the configuration with
`total = 0` and `main` finishes normally with a `BenchResult` for each of the six
built-in backends of the default list, each reporting zero samples. -/
theorem zero_total_runs_benchmarks :
    (∃ cmd, parse StdLib.digits ["rng_bench", "--total", "0"] = .ok cmd ∧ cmd.total = 0) ∧
    ∃ rs, main StdLib.digits Engines.counters Platform.bare Scheduler.inOrder
        ["rng_bench", "--total", "0"] = .ok rs ∧
      rs.map (fun r => (r.name, r.total_u64, r.total_f64, r.threads))
        = [("std_mt19937", 0, 0, 4), ("std_mt19937_64", 0, 0, 4), ("minstd_rand", 0, 0, 4),
           ("ranlux48", 0, 0, 4), ("xoroshiro128pp", 0, 0, 4), ("pcg32", 0, 0, 4)] := by
  refine ⟨⟨_, rfl, ?_⟩, _, rfl, ?_⟩
  · with_unfolding_all decide
  · with_unfolding_all decide

/-! ## Seeding: `splitmix64` and the seeder states -/

theorem xorshift_testBit (k a i : Nat) :
    (a ^^^ (a >>> k)).testBit i = xor (a.testBit i) (a.testBit (k + i)) := by
  rw [Nat.testBit_xor, Nat.testBit_shiftRight]

theorem xorshift_injective (k : Nat) (hk : 0 < k) (a b : Nat)
    (h : a ^^^ (a >>> k) = b ^^^ (b >>> k)) : a = b := by
  have key : ∀ m i, (a + b) - i ≤ m → a.testBit i = b.testBit i := by
    intro m
    induction m with
    | zero =>
      intro i hi
      have ha : a < 2 ^ i := lt_of_le_of_lt (by omega) (Nat.lt_two_pow i)
      have hb : b < 2 ^ i := lt_of_le_of_lt (by omega) (Nat.lt_two_pow i)
      rw [Nat.testBit_eq_false_of_lt ha, Nat.testBit_eq_false_of_lt hb]
    | succ m ih =>
      intro i hi
      have h1 := congrArg (fun x => x.testBit i) h
      simp only [xorshift_testBit] at h1
      have h2 := ih (k + i) (by omega)
      rw [h2] at h1
      cases ha : a.testBit i <;> cases hb : b.testBit i <;> cases hc : b.testBit (k + i) <;>
        simp [ha, hb, hc] at h1 ⊢
  exact Nat.eq_of_testBit_eq (fun i => key _ i (le_refl _))

theorem mul_odd_injective (c : Nat) (hc : Nat.Coprime (2 ^ 64) c) (x y : Nat)
    (hx : x < 2 ^ 64) (hy : y < 2 ^ 64) (h : (x * c) % 2 ^ 64 = (y * c) % 2 ^ 64) : x = y := by
  have h1 : x ≡ y [MOD 2 ^ 64] := Nat.ModEq.cancel_right_of_coprime hc h
  have h2 : x % 2 ^ 64 = y % 2 ^ 64 := h1
  rw [Nat.mod_eq_of_lt hx, Nat.mod_eq_of_lt hy] at h2
  exact h2

theorem xorshift_lt (k a : Nat) (ha : a < 2 ^ 64) : a ^^^ (a >>> k) < 2 ^ 64 := by
  apply Nat.xor_lt_two_pow ha
  rw [Nat.shiftRight_eq_div_pow]
  exact lt_of_le_of_lt (Nat.div_le_self _ _) ha

theorem splitmix64_next_injective (s s' : Nat) (hs : s < 2 ^ 64) (hs' : s' < 2 ^ 64)
    (h : (splitmix64_next s).1 = (splitmix64_next s').1) : s = s' := by
  simp only [splitmix64_next] at h
  have hm : ∀ n : Nat, n % 2 ^ 64 < 2 ^ 64 := fun n => Nat.mod_lt _ (by norm_num)
  have h1 := xorshift_injective 31 (by norm_num) _ _ h
  have h2 := mul_odd_injective _ (by norm_num) _ _ (xorshift_lt 27 _ (hm _))
    (xorshift_lt 27 _ (hm _)) h1
  have h3 := xorshift_injective 27 (by norm_num) _ _ h2
  have h4 := mul_odd_injective _ (by norm_num) _ _ (xorshift_lt 30 _ (hm _))
    (xorshift_lt 30 _ (hm _)) h3
  have h5 := xorshift_injective 30 (by norm_num) _ _ h4
  clear h h1 h2 h3 h4 hm
  omega

theorem splitmix64_next_lt (s : Nat) : (splitmix64_next s).1 < 2 ^ 64 := by
  simp only [splitmix64_next]
  exact xorshift_lt 31 _ (Nat.mod_lt _ (by norm_num))


theorem cross_back (base : Nat) :
    seeder_u64 base 1134903170 = seeder_f64 base 3235033170 ∧
    seeder_u64 base 4106118243 = seeder_f64 base 3226230533 := by
  simp only [seeder_u64, seeder_f64]
  constructor <;> omega

theorem mul_small_injective (i j : Nat) (hi : i < 2 ^ 32) (hj : j < 2 ^ 32)
    (h : (i * 0x9E37) % 2 ^ 32 = (j * 0x9E37) % 2 ^ 32) : i = j := by
  have h1 : i ≡ j [MOD 2 ^ 32] := Nat.ModEq.cancel_right_of_coprime (by norm_num) h
  have h2 : i % 2 ^ 32 = j % 2 ^ 32 := h1
  rw [Nat.mod_eq_of_lt hi, Nat.mod_eq_of_lt hj] at h2
  exact h2

theorem cross_modEq (base i d : Nat)
    (h : (base + (i * 0x9E3779B97F4A7C15) % 2 ^ 64) % 2 ^ 64
      = ((base + 0xFACEB00C) % 2 ^ 64 + d) % 2 ^ 64) :
    i * 0x9E3779B97F4A7C15 ≡ 0xFACEB00C + d [MOD 2 ^ 64] := by
  have h1 : base + i * 0x9E3779B97F4A7C15 ≡ base + (i * 0x9E3779B97F4A7C15) % 2 ^ 64
      [MOD 2 ^ 64] := Nat.ModEq.add_left base (Nat.mod_modEq _ _).symm
  have h2 : (base + 0xFACEB00C) % 2 ^ 64 + d ≡ base + 0xFACEB00C + d [MOD 2 ^ 64] :=
    Nat.ModEq.add_right d (Nat.mod_modEq _ _)
  have h3 : base + i * 0x9E3779B97F4A7C15 ≡ base + 0xFACEB00C + d [MOD 2 ^ 64] :=
    (h1.trans h).trans h2
  rw [Nat.add_assoc] at h3
  exact Nat.ModEq.add_left_cancel' base h3

theorem cross_equation (i d : Nat) (hi : i < 2 ^ 32) (hd : d < 2 ^ 32)
    (h : i * 0x9E3779B97F4A7C15 ≡ 0xFACEB00C + d [MOD 2 ^ 64]) :
    2971215073 * (0xFACEB00C + d) + 50920843 * i = 2 ^ 64 := by
  have e2 : 2971215073 * (i * 0x9E3779B97F4A7C15) ≡ 2971215073 * (0xFACEB00C + d)
      [MOD 2 ^ 64] := h.mul_left _
  have e3 : 2971215073 * (i * 0x9E3779B97F4A7C15) + 50920843 * i
      = 2 ^ 64 * (1836311903 * i) := by ring
  have e4 : 2971215073 * (0xFACEB00C + d) + 50920843 * i ≡ 0 [MOD 2 ^ 64] := by
    have : 2971215073 * (i * 0x9E3779B97F4A7C15) + 50920843 * i ≡ 0 [MOD 2 ^ 64] := by
      rw [e3]
      exact (Nat.modEq_zero_iff_dvd).mpr (Dvd.intro _ rfl)
    exact (Nat.ModEq.add_right _ e2.symm).trans this
  obtain ⟨m, hm⟩ := (Nat.modEq_zero_iff_dvd).mp e4
  have h1 : 0 < m := by
    rcases Nat.eq_zero_or_pos m with h0 | h0
    · rw [h0] at hm; norm_num at hm
    · exact h0
  have h2 : m < 2 := by
    by_contra hc
    have hm2 : 2 ≤ m := Nat.le_of_not_lt hc
    have hb : 2 ^ 64 * 2 ≤ 2 ^ 64 * m := Nat.mul_le_mul_left _ hm2
    have hd' : 2971215073 * (0xFACEB00C + d) ≤ 2971215073 * (0xFACEB00C + 2 ^ 32) :=
      Nat.mul_le_mul_left _ (Nat.add_le_add_left (le_of_lt hd) _)
    have hi' : 50920843 * i ≤ 50920843 * 2 ^ 32 := Nat.mul_le_mul_left _ (le_of_lt hi)
    have hc : 2971215073 * (0xFACEB00C + 2 ^ 32) + 50920843 * 2 ^ 32 < 2 ^ 64 * 2 := by
      norm_num
    linarith
  have h3 : m = 1 := Nat.le_antisymm (Nat.lt_succ_iff.mp h2) h1
  rw [hm, h3, Nat.mul_one]

theorem cross_solutions (i d : Nat) (hi : i < 2 ^ 32)
    (h : 2971215073 * (0xFACEB00C + d) + 50920843 * i = 2 ^ 64) :
    (i = 1134903170 ∧ d = 1981185438) ∨ (i = 4106118243 ∧ d = 1930264595) := by
  have hz : (2971215073 : ℤ) * (0xFACEB00C + (d : ℤ)) + 50920843 * (i : ℤ) = 2 ^ 64 := by
    exact_mod_cast h
  have hlin : (50920843 : ℤ) * ((i : ℤ) - 1134903170)
      = 2971215073 * (1981185438 - (d : ℤ)) := by
    linarith
  have hdvd : (2971215073 : ℤ) ∣ (i : ℤ) - 1134903170 :=
    Int.dvd_of_dvd_mul_right_of_gcd_one (Dvd.intro _ hlin.symm) (by norm_num)
  obtain ⟨k, hk⟩ := hdvd
  have hi0 : (0 : ℤ) ≤ (i : ℤ) := Int.ofNat_nonneg i
  have hi1 : (i : ℤ) < 4294967296 := by exact_mod_cast hi
  have hk01 : k = 0 ∨ k = 1 := by
    clear h hz hlin hi
    omega
  rcases hk01 with rfl | rfl
  · left
    have h1 : (i : ℤ) = 1134903170 := by linarith
    have h2 : (d : ℤ) = 1981185438 := by
      rw [h1] at hlin
      have : (2971215073 : ℤ) * (1981185438 - (d : ℤ)) = 0 := by linarith
      rcases mul_eq_zero.mp this with h0 | h0
      · norm_num at h0
      · linarith
    exact ⟨by exact_mod_cast h1, by exact_mod_cast h2⟩
  · right
    have h1 : (i : ℤ) = 4106118243 := by linarith
    have h2 : (d : ℤ) = 1930264595 := by
      rw [h1] at hlin
      have : (2971215073 : ℤ) * (1930264595 - (d : ℤ)) = 0 := by linarith
      rcases mul_eq_zero.mp this with h0 | h0
      · norm_num at h0
      · linarith
    exact ⟨by exact_mod_cast h1, by exact_mod_cast h2⟩

theorem cross_phase_states (base i j : Nat) (hi : i < 2 ^ 32) (hj : j < 2 ^ 32) :
    seeder_u64 base i = seeder_f64 base j ↔
      (i = 1134903170 ∧ j = 3235033170) ∨ (i = 4106118243 ∧ j = 3226230533) := by
  constructor
  · intro h
    simp only [seeder_u64, seeder_f64] at h
    have hd : (j * 0x9E37) % 2 ^ 32 < 2 ^ 32 := Nat.mod_lt _ (by norm_num)
    have heq := cross_equation i _ hi hd (cross_modEq base i _ h)
    rcases cross_solutions i _ hi heq with ⟨h1, h2⟩ | ⟨h1, h2⟩
    · left
      refine ⟨h1, mul_small_injective j 3235033170 hj (by norm_num) ?_⟩
      rw [h2]
      norm_num
    · right
      refine ⟨h1, mul_small_injective j 3226230533 hj (by norm_num) ?_⟩
      rw [h2]
      norm_num
  · rintro (⟨rfl, rfl⟩ | ⟨rfl, rfl⟩)
    · exact (cross_back base).1
    · exact (cross_back base).2

theorem seeder_u64_injective (base i j : Nat) (hi : i < 2 ^ 32) (hj : j < 2 ^ 32)
    (h : seeder_u64 base i = seeder_u64 base j) : i = j := by
  simp only [seeder_u64] at h
  have h1 : base + i * 0x9E3779B97F4A7C15 ≡ base + (i * 0x9E3779B97F4A7C15) % 2 ^ 64
      [MOD 2 ^ 64] := Nat.ModEq.add_left base (Nat.mod_modEq _ _).symm
  have h2 : base + (j * 0x9E3779B97F4A7C15) % 2 ^ 64 ≡ base + j * 0x9E3779B97F4A7C15
      [MOD 2 ^ 64] := Nat.ModEq.add_left base (Nat.mod_modEq _ _)
  have h3 : i * 0x9E3779B97F4A7C15 ≡ j * 0x9E3779B97F4A7C15 [MOD 2 ^ 64] :=
    Nat.ModEq.add_left_cancel' base ((h1.trans h).trans h2)
  have h4 : i ≡ j [MOD 2 ^ 64] := Nat.ModEq.cancel_right_of_coprime (by norm_num) h3
  have h5 : i % 2 ^ 64 = j % 2 ^ 64 := h4
  clear h h1 h2 h3 h4
  omega

theorem seeder_f64_injective (base i j : Nat) (hi : i < 2 ^ 32) (hj : j < 2 ^ 32)
    (h : seeder_f64 base i = seeder_f64 base j) : i = j := by
  simp only [seeder_f64] at h
  apply mul_small_injective i j hi hj
  have hdi : (i * 0x9E37) % 2 ^ 32 < 2 ^ 32 := Nat.mod_lt _ (by norm_num)
  have hdj : (j * 0x9E37) % 2 ^ 32 < 2 ^ 32 := Nat.mod_lt _ (by norm_num)
  have ha : (base + 0xFACEB00C) % 2 ^ 64 < 2 ^ 64 := Nat.mod_lt _ (by norm_num)
  generalize (i * 0x9E37) % 2 ^ 32 = di at h hdi ⊢
  generalize (j * 0x9E37) % 2 ^ 32 = dj at h hdj ⊢
  generalize (base + 0xFACEB00C) % 2 ^ 64 = a at h ha
  omega

theorem seeder_lt (base i : Nat) : seeder_u64 base i < 2 ^ 64 ∧ seeder_f64 base i < 2 ^ 64 :=
  ⟨Nat.mod_lt _ (by norm_num), Nat.mod_lt _ (by norm_num)⟩

theorem splitmix64_next_surjective (y : Nat) (hy : y < 2 ^ 64) :
    ∃ s, s < 2 ^ 64 ∧ (splitmix64_next s).1 = y := by
  let f : Fin (2 ^ 64) → Fin (2 ^ 64) :=
    fun s => ⟨(splitmix64_next s.1).1, splitmix64_next_lt s.1⟩
  have hinj : Function.Injective f := by
    intro a b hab
    apply Fin.ext
    exact splitmix64_next_injective a.1 b.1 a.2 b.2 (congrArg Fin.val hab)
  obtain ⟨s, hs⟩ := (Finite.injective_iff_surjective.mp hinj) ⟨y, hy⟩
  exact ⟨s.1, s.2, congrArg Fin.val hs⟩

/-! ## C11 -/

theorem parseArgs_threads (L : StdLib) (v : String) (t : Nat) (rest : List String) (c : Cmd)
    (hv : L.stoul v = some t) :
    parseArgs L ("--threads" :: v :: rest) c
      = parseArgs L rest { c with threads := if t % 2 ^ 32 = 0 then 1 else t % 2 ^ 32 } := by
  rw [parseArgs]
  simp [hv]

theorem parseArgs_threads_pos (L : StdLib) (n : Nat) :
    ∀ (args : List String) (c cmd : Cmd), args.length ≤ n → 1 ≤ c.threads →
      parseArgs L args c = .ok cmd → 1 ≤ cmd.threads := by
  induction n using Nat.strong_induction_on with
  | _ n ih =>
    intro args c cmd hlen hc h
    match args, hlen with
    | [], _ =>
      rw [parseArgs] at h
      cases h
      exact hc
    | [a], _ =>
      rw [parseArgs] at h
      split_ifs at h
    | a :: v :: rest, hlen =>
      have hl : rest.length < n := by
        simp only [List.length_cons] at hlen
        omega
      have hrec : ∀ c' : Cmd, 1 ≤ c'.threads → parseArgs L rest c' = .ok cmd →
          1 ≤ cmd.threads := fun c' hc' h' => ih rest.length hl rest c' cmd (le_refl _) hc' h'
      rw [parseArgs] at h
      repeat' split at h
      all_goals first
        | (refine hrec _ ?_ h
           first
             | exact hc
             | (dsimp only
                split_ifs <;> omega))
        | cases h

theorem parseArgs_ne_divByZero (L : StdLib) (n : Nat) :
    ∀ (args : List String) (c : Cmd), args.length ≤ n →
      parseArgs L args c ≠ .error .divByZero := by
  induction n using Nat.strong_induction_on with
  | _ n ih =>
    intro args c hlen
    match args, hlen with
    | [], _ =>
      rw [parseArgs]
      intro h
      cases h
    | [a], _ =>
      rw [parseArgs]
      split_ifs <;> intro h <;> cases h
    | a :: v :: rest, hlen =>
      have hl : rest.length < n := by
        simp only [List.length_cons] at hlen
        omega
      have hrec : ∀ c' : Cmd, parseArgs L rest c' ≠ .error .divByZero :=
        fun c' => ih rest.length hl rest c' (le_refl _)
      rw [parseArgs]
      repeat' split
      all_goals first
        | exact hrec _
        | (intro h
           cases h)

theorem run_bench_ne_divByZero (B : Backend) (name : String) (cmd : Cmd)
    (statics : RunningStats) (su sf : Schedule cmd.threads) (hW : 1 ≤ cmd.threads) :
    run_bench B name cmd statics su sf ≠ .error .divByZero := by
  rw [run_bench, if_neg (by omega)]
  dsimp only
  repeat' split
  all_goals
    intro h
    cases h

theorem run_bench_csimd_ne_divByZero (P : Platform) (name : String) (cmd : Cmd)
    (libpath : String) (algo_id bitwidth : Int) (statics : RunningStats)
    (su sf : Schedule cmd.threads) (hW : 1 ≤ cmd.threads) :
    run_bench_csimd P name cmd libpath algo_id bitwidth statics su sf
      ≠ .error .divByZero := by
  rw [run_bench_csimd]
  split
  · intro h
    cases h
  · rename_i lib _
    have := run_bench_ne_divByZero (lib.Instance algo_id bitwidth) name cmd statics su sf hW
    split
    · rename_i a ha
      intro h
      cases h
      exact this ha
    · intro h
      cases h

theorem bind_ne_divByZero {α β : Type} (x : Except Abort α) (f : α → Except Abort β)
    (hx : x ≠ .error .divByZero) (hf : ∀ a, f a ≠ .error .divByZero) :
    x.bind f ≠ .error .divByZero := by
  cases x with
  | error e =>
    intro h
    simp only [Except.bind] at h
    cases h
    exact hx rfl
  | ok a => exact hf a

theorem bench_if_wanted_ne_divByZero (sch : Scheduler) (cmd : Cmd) (tag name : String)
    (R : Rng) (results : List BenchResult) (hW : 1 ≤ cmd.threads) :
    bench_if_wanted sch cmd tag name R results ≠ .error .divByZero := by
  have := run_bench_ne_divByZero R.toBackend name cmd {} (sch.u64 name cmd.threads)
    (sch.f64 name cmd.threads) hW
  rw [bench_if_wanted]
  split
  · simp only [run_bench_fixed]
    split
    · rename_i a ha
      intro h
      cases h
      exact this ha
    · intro h
      cases h
  · intro h
    cases h

theorem bench_csimd_if_wanted_ne_divByZero (P : Platform) (sch : Scheduler) (cmd : Cmd)
    (results : List BenchResult) (hW : 1 ≤ cmd.threads) :
    bench_csimd_if_wanted P sch cmd results ≠ .error .divByZero := by
  have := run_bench_csimd_ne_divByZero P "csimd_universal" cmd cmd.csimd_path cmd.csimd_algo
    cmd.csimd_bitwidth {} (sch.u64 "csimd_universal" cmd.threads)
    (sch.f64 "csimd_universal" cmd.threads) hW
  rw [bench_csimd_if_wanted]
  split
  · split
    · intro h
      cases h
    · split
      · rename_i a ha
        intro h
        cases h
        exact this ha
      · intro h
        cases h
      · intro h
        cases h
  · intro h
    cases h

theorem run_all_ne_divByZero (E : Engines) (P : Platform) (sch : Scheduler) (cmd : Cmd)
    (hW : 1 ≤ cmd.threads) : run_all E P sch cmd ≠ .error .divByZero := by
  have hW' : 1 ≤ (with_default_gens cmd).threads := by
    rw [(with_default_gens_fields cmd).2.1]
    exact hW
  simp only [run_all]
  refine bind_ne_divByZero _ _ (bench_if_wanted_ne_divByZero _ _ _ _ _ _ hW') (fun _ => ?_)
  refine bind_ne_divByZero _ _ (bench_if_wanted_ne_divByZero _ _ _ _ _ _ hW') (fun _ => ?_)
  refine bind_ne_divByZero _ _ (bench_if_wanted_ne_divByZero _ _ _ _ _ _ hW') (fun _ => ?_)
  refine bind_ne_divByZero _ _ (bench_if_wanted_ne_divByZero _ _ _ _ _ _ hW') (fun _ => ?_)
  refine bind_ne_divByZero _ _ (bench_if_wanted_ne_divByZero _ _ _ _ _ _ hW') (fun _ => ?_)
  refine bind_ne_divByZero _ _ (bench_if_wanted_ne_divByZero _ _ _ _ _ _ hW') (fun _ => ?_)
  exact bench_csimd_if_wanted_ne_divByZero _ _ _ _ hW'

theorem parse_ok_threads_pos (L : StdLib) (argv : List String) (cmd : Cmd)
    (h : parse L argv = .ok cmd) : 1 ≤ cmd.threads :=
  parseArgs_threads_pos L _ _ _ cmd (le_refl _) (hw_threads_pos L) h

theorem main_ne_divByZero (L : StdLib) (E : Engines) (P : Platform) (sch : Scheduler)
    (argv : List String) : main L E P sch argv ≠ .error .divByZero := by
  rw [main]
  cases hp : parse L argv with
  | error e =>
    intro h
    simp only [Except.bind] at h
    cases h
    exact parseArgs_ne_divByZero L _ _ _ (le_refl _) hp
  | ok cmd => exact run_all_ne_divByZero E P sch cmd (parse_ok_threads_pos L argv cmd hp)

/-- C11: the worker count is at least 1 whenever the benchmark runs. For every argument
list that `parse` accepts the returned `Cmd` has `threads >= 1`: the default
`hw_threads()` is at least 1, and a `--threads` value that is 0, or becomes 0 when
narrowed to 32 bits, is replaced by 1. Hence the division `per_thread = total / threads`
of `run_bench_fixed` and `run_bench_csimd` is never a division by zero on that
configuration, and no run of `main` stops on one. -/
theorem parse_threads_at_least_one (L : StdLib) (E : Engines) (P : Platform)
    (sch : Scheduler) (R : Rng) (name : String) (statics : RunningStats)
    (argv : List String) (cmd : Cmd) (su sf : Schedule cmd.threads)
    (h : parse L argv = .ok cmd) :
    1 ≤ cmd.threads ∧
    1 ≤ hw_threads L ∧
    (∀ (v : String) (t : Nat) (rest : List String) (c : Cmd), L.stoul v = some t →
      parseArgs L ("--threads" :: v :: rest) c
        = parseArgs L rest { c with threads := if t % 2 ^ 32 = 0 then 1 else t % 2 ^ 32 }) ∧
    run_bench_fixed R name cmd statics su sf ≠ .error .divByZero ∧
    (∀ (libpath : String) (algo_id bitwidth : Int),
      run_bench_csimd P name cmd libpath algo_id bitwidth statics su sf
        ≠ .error .divByZero) ∧
    main L E P sch argv ≠ .error .divByZero := by
  have hW := parse_ok_threads_pos L argv cmd h
  exact ⟨hW, hw_threads_pos L, fun v t rest c hv => parseArgs_threads L v t rest c hv,
    run_bench_ne_divByZero R.toBackend name cmd statics su sf hW,
    fun libpath algo_id bitwidth =>
      run_bench_csimd_ne_divByZero P name cmd libpath algo_id bitwidth statics su sf hW,
    main_ne_divByZero L E P sch argv⟩

theorem parse_threads_at_least_one_witness :
    parse StdLib.digits ["rng_bench", "--threads", "0"] = .ok { threads := 1 } ∧
    1 ≤ ({ threads := 1 } : Cmd).threads ∧
    1 ≤ hw_threads StdLib.digits ∧
    (∀ (v : String) (t : Nat) (rest : List String) (c : Cmd), StdLib.digits.stoul v = some t →
      parseArgs StdLib.digits ("--threads" :: v :: rest) c
        = parseArgs StdLib.digits rest
            { c with threads := if t % 2 ^ 32 = 0 then 1 else t % 2 ^ 32 }) ∧
    run_bench_fixed pcg32.rng "pcg32" { threads := 1 } {} (Schedule.inOrder 1)
      (Schedule.inOrder 1) ≠ .error .divByZero ∧
    (∀ (libpath : String) (algo_id bitwidth : Int),
      run_bench_csimd Platform.bare "pcg32" { threads := 1 } libpath algo_id bitwidth {}
        (Schedule.inOrder 1) (Schedule.inOrder 1) ≠ .error .divByZero) ∧
    main StdLib.digits Engines.counters Platform.bare Scheduler.inOrder
      ["rng_bench", "--threads", "0"] ≠ .error .divByZero :=
  ⟨rfl, parse_threads_at_least_one StdLib.digits Engines.counters Platform.bare
    Scheduler.inOrder pcg32.rng "pcg32" {} ["rng_bench", "--threads", "0"] { threads := 1 }
    (Schedule.inOrder 1) (Schedule.inOrder 1) rfl⟩

/-! ## C12 -/

/-- C12, as the code has it: the integer phase and the double phase reuse a generator
seed at exactly two pairs of worker indices. For every base seed and all 32-bit worker
indices `i` and `j`, the seed of worker `i` in the integer phase,
`splitmix64(base + i*0x9E3779B97F4A7C15).next()`, equals the seed of worker `j` in the
double phase, `splitmix64(base + 0xFACEB00C + (j*0x9E37 mod 2^32)).next()`, if and only
if `(i, j)` is `(1134903170, 3235033170)` or `(4106118243, 3226230533)`; in particular
the two seeds differ whenever `i` and `j` are both below `3235033170`, that is in every
run with at most that many workers. -/
theorem cross_phase_seeds (base i j : Nat) (hi : i < 2 ^ 32) (hj : j < 2 ^ 32) :
    ((splitmix64_next (seeder_u64 base i)).1 = (splitmix64_next (seeder_f64 base j)).1 ↔
      (i = 1134903170 ∧ j = 3235033170) ∨ (i = 4106118243 ∧ j = 3226230533)) ∧
    (i < 3235033170 → j < 3235033170 →
      (splitmix64_next (seeder_u64 base i)).1 ≠ (splitmix64_next (seeder_f64 base j)).1) := by
  have hiff : (splitmix64_next (seeder_u64 base i)).1 = (splitmix64_next (seeder_f64 base j)).1 ↔
      (i = 1134903170 ∧ j = 3235033170) ∨ (i = 4106118243 ∧ j = 3226230533) := by
    rw [← cross_phase_states base i j hi hj]
    constructor
    · intro h
      exact splitmix64_next_injective _ _ (seeder_lt base i).1 (seeder_lt base j).2 h
    · intro h
      rw [h]
  refine ⟨hiff, ?_⟩
  intro hi' hj' h
  rcases hiff.mp h with ⟨_, h2⟩ | ⟨h1, _⟩
  · omega
  · omega

theorem cross_phase_seeds_witness :
    (3 : Nat) < 2 ^ 32 ∧ (5 : Nat) < 2 ^ 32 ∧
    ((splitmix64_next (seeder_u64 0xC0FFEED5EED 3)).1
        = (splitmix64_next (seeder_f64 0xC0FFEED5EED 5)).1 ↔
      ((3 : Nat) = 1134903170 ∧ (5 : Nat) = 3235033170) ∨
        ((3 : Nat) = 4106118243 ∧ (5 : Nat) = 3226230533)) ∧
    ((3 : Nat) < 3235033170 → (5 : Nat) < 3235033170 →
      (splitmix64_next (seeder_u64 0xC0FFEED5EED 3)).1
        ≠ (splitmix64_next (seeder_f64 0xC0FFEED5EED 5)).1) :=
  ⟨by decide, by decide, cross_phase_seeds 0xC0FFEED5EED 3 5 (by decide) (by decide)⟩

/-- C12, counterexample: with the default base seed `0xC0FFEED5EED`, worker
`i = 1134903170` of the integer phase and worker `j = 3235033170` of the double phase
(both 32-bit indices) have the same seeder state `13269030046871`, hence the same
generator seed `5244677725751809806`. -/
theorem cross_phase_seed_collision :
    1134903170 < 2 ^ 32 ∧ 3235033170 < 2 ^ 32 ∧
    seeder_u64 0xC0FFEED5EED 1134903170 = 13269030046871 ∧
    seeder_f64 0xC0FFEED5EED 3235033170 = 13269030046871 ∧
    (splitmix64_next (seeder_u64 0xC0FFEED5EED 1134903170)).1 = 5244677725751809806 ∧
    (splitmix64_next (seeder_f64 0xC0FFEED5EED 3235033170)).1 = 5244677725751809806 := by
  decide

/-! ## C13 -/

/-- C13: within one phase distinct workers are seeded differently. The first output of
`splitmix64` is an injective function of its 64-bit initial state, and onto the 64-bit
values; for every base seed and every two distinct 32-bit worker indices `i != j` the
seeder states `base + i*0x9E3779B97F4A7C15` of the integer phase differ, as do the states
`base + 0xFACEB00C + (i*0x9E37 mod 2^32)` of the double phase; hence the seeds handed to
the generators of workers `i` and `j` in the same phase are different. -/
theorem in_phase_seeds_distinct :
    (∀ s s' : Nat, s < 2 ^ 64 → s' < 2 ^ 64 →
      (splitmix64_next s).1 = (splitmix64_next s').1 → s = s') ∧
    (∀ s : Nat, (splitmix64_next s).1 < 2 ^ 64) ∧
    (∀ y : Nat, y < 2 ^ 64 → ∃ s, s < 2 ^ 64 ∧ (splitmix64_next s).1 = y) ∧
    (∀ base i j : Nat, i < 2 ^ 32 → j < 2 ^ 32 → i ≠ j →
      seeder_u64 base i ≠ seeder_u64 base j ∧
      seeder_f64 base i ≠ seeder_f64 base j ∧
      (splitmix64_next (seeder_u64 base i)).1 ≠ (splitmix64_next (seeder_u64 base j)).1 ∧
      (splitmix64_next (seeder_f64 base i)).1 ≠ (splitmix64_next (seeder_f64 base j)).1) := by
  refine ⟨splitmix64_next_injective, splitmix64_next_lt, splitmix64_next_surjective, ?_⟩
  intro base i j hi hj hne
  have hu : seeder_u64 base i ≠ seeder_u64 base j :=
    fun h => hne (seeder_u64_injective base i j hi hj h)
  have hf : seeder_f64 base i ≠ seeder_f64 base j :=
    fun h => hne (seeder_f64_injective base i j hi hj h)
  refine ⟨hu, hf, ?_, ?_⟩
  · intro h
    exact hu (splitmix64_next_injective _ _ (seeder_lt base i).1 (seeder_lt base j).1 h)
  · intro h
    exact hf (splitmix64_next_injective _ _ (seeder_lt base i).2 (seeder_lt base j).2 h)

end RngBench
